import Mathlib

/-!
Verification of the MinHeapTimer engine (src/MinHeapTimer.hpp).

The engine is an indexed binary min-heap of timer nodes keyed by absolute
expiration time, with an id-to-node lookup table, an expiration sweep
(ExpireTimer) and a polling-loop driver (MinHeapTimerLoop).

Shallow embedding conventions:
* The heap std::vector<TNode*> becomes a list of node values; each node
  carries its idx field exactly as in the source.
* std::map<int, TNode*> _map maps an id to a pointer to the node that also
  sits in the heap.  Pointer aliasing has no value-level counterpart, so the
  map is embedded as its ordered key list; the mapped node is the unique
  heap node carrying that id (the aliasing invariant of the source).
* The C++ static int _count is embedded as a mathematical integer together
  with a two's-complement 32-bit wrap where an increment overflows.
* uint64_t arithmetic is Nat with an explicit mod 2 ^ 64.
* TimeUtils::CurrentTime_ms() is a parameter now; inside one ExpireTimer
  call the clock is read once in the source and the model keeps it fixed.
* The payload T data and the std::function callback never influence control
  flow; callback invocations are recorded as an explicit trace of the fired
  node values (the value the callback sees at the moment of the call).
* Locks are concurrency-only and have no sequential content.
-/

set_option maxHeartbeats 1000000

namespace MHT

/-- Timer node, from struct TimerNode<T>: position index in the heap, id,
absolute expiration, requested interval, and the repeat flag. -/
structure TNode where
  idx : Nat
  id : Int
  expire_ms : Nat
  timing_time_ms : Nat
  is_loop : Bool
deriving Repr, DecidableEq, Inhabited

abbrev Heap := List TNode

/-- Read of the heap slot i (the source indexes the backing vector). -/
def nodeAt (h : Heap) (i : Nat) : TNode := h.getD i default

/-- Expiration value stored at slot i. -/
def ev (h : Heap) (i : Nat) : Nat := (nodeAt h i).expire_ms

/-- Source _lessThan(lhs, rhs): compares expire_ms of two heap slots. -/
def lessThan (h : Heap) (l r : Nat) : Bool := decide (ev h l < ev h r)

/-- Overwrite the recorded heap position of a node. -/
def setIdx (n : TNode) (i : Nat) : TNode := { n with idx := i }

/-- std::swap(_heap[i], _heap[j]) followed by the two idx assignments, as in
the bodies of _shiftDown and _shiftUp. -/
def swapFix (h : Heap) (i j : Nat) : Heap :=
  (h.set i (setIdx (nodeAt h j) i)).set j (setIdx (nodeAt h i) j)

/-- Loop of _shiftUp with an explicit structural fuel; the cursor strictly
decreases on every pass, so pos + 1 passes always reach the exit (theorem
shiftUp_eq recovers the plain loop equation). -/
def shiftUpF : Nat → Heap → Nat → Heap
  | 0, h, _ => h
  | fuel + 1, h, pos =>
    if (pos - 1) / 2 = pos then h
    else if lessThan h pos ((pos - 1) / 2) then
      shiftUpF fuel (swapFix h ((pos - 1) / 2) pos) ((pos - 1) / 2)
    else h

/-- Source _shiftUp(pos).  The C++ exit test parent == pos with truncating
division holds exactly at pos = 0, which Nat subtraction reproduces. -/
def shiftUp (h : Heap) (pos : Nat) : Heap := shiftUpF (pos + 1) h pos

/-- Child selected by _shiftDown: the right child when it exists below the
bound and is not larger than the left child, otherwise the left child. -/
def minChild (h : Heap) (last idx : Nat) : Nat :=
  if 2 * idx + 2 < last ∧ ¬ lessThan h (2 * idx + 1) (2 * idx + 2) = true
  then 2 * idx + 2 else 2 * idx + 1

/-- Loop of _shiftDown with an explicit structural fuel; the cursor strictly
increases toward the bound on every pass, so last passes always reach the
exit (theorem shiftDownAux_eq recovers the plain loop equation). -/
def shiftDownF : Nat → Nat → Heap → Nat → Heap × Nat
  | 0, _, h, idx => (h, idx)
  | fuel + 1, last, h, idx =>
    if 2 * idx + 1 < last then
      if lessThan h (minChild h last idx) idx then
        shiftDownF fuel last (swapFix h idx (minChild h last idx)) (minChild h last idx)
      else (h, idx)
    else (h, idx)

/-- Loop of _shiftDown below the fixed bound last (the source computes
last = size - 1 once; the slot at last is never examined).  The C++ test
left < 0 guards int overflow and cannot fire in the Nat model. -/
def shiftDownAux (last : Nat) (h : Heap) (idx : Nat) : Heap × Nat :=
  shiftDownF (last - idx) last h idx

/-- Source _shiftDown(pos): sift down below size - 1 and report whether the
node moved. -/
def shiftDown (h : Heap) (pos : Nat) : Heap × Bool :=
  let r := shiftDownAux (h.length - 1) h pos
  (r.1, decide (pos < r.2))

/-- INT_MAX of the 32-bit C++ int backing _count. -/
def int32Max : Int := 2 ^ 31 - 1

/-- INT_MIN of that int. -/
def int32Min : Int := -(2 ^ 31)

/-- Two's-complement reduction of an integer into the 32-bit int range. -/
def wrap32 (n : Int) : Int := (n + 2 ^ 31) % 2 ^ 32 - 2 ^ 31

/-- Source static Count(): returns ++_count on the class-static int
counter; the int increment is modelled two's-complement. -/
def countStep (c : Int) : Int := wrap32 (c + 1)

/-- Engine state: the heap vector, the ordered key list of the id map, and
the static id counter. -/
structure TimerState where
  heap : Heap
  tmap : List Int
  count : Int
deriving Repr, DecidableEq, Inhabited

/-- std::map insert of a key: sorted insertion that keeps an existing equal
key (map::insert does not overwrite). -/
def mapInsert (k : Int) : List Int → List Int
  | [] => [k]
  | x :: xs => if k < x then k :: x :: xs else if k = x then x :: xs else x :: mapInsert k xs

/-- std::map erase of a key. -/
def mapErase (k : Int) (l : List Int) : List Int := l.filter (fun x => x != k)

/-- Source _addTimer(timing_time_ms, data, fb, is_loop), body of every
AddTimer overload: expire_ms = now + timing (uint64), fresh id from
Count(), idx = size, push_back, _shiftUp(size - 1), map insert. -/
def addTimer (s : TimerState) (now timing : Nat) (lp : Bool) : TimerState × Int :=
  let expire := (now + timing) % 2 ^ 64
  let i := countStep s.count
  let node : TNode := { idx := s.heap.length, id := i, expire_ms := expire,
                        timing_time_ms := timing, is_loop := lp }
  let h := s.heap ++ [node]
  ({ heap := shiftUp h (h.length - 1), tmap := mapInsert i s.tmap, count := i }, i)

/-- Source _addTimer(TNode*), the reinsertion used on a repeating firing:
the node keeps its timing_time_ms and is_loop but receives a fresh id from
Count() and a recomputed expire_ms before push_back and _shiftUp. -/
def reAddTimer (s : TimerState) (now : Nat) (node : TNode) : TimerState :=
  let expire := (now + node.timing_time_ms) % 2 ^ 64
  let i := countStep s.count
  let node2 := { node with idx := s.heap.length, id := i, expire_ms := expire }
  let h := s.heap ++ [node2]
  { heap := shiftUp h (h.length - 1), tmap := mapInsert i s.tmap, count := i }

/-- Source _removeNode(node): when the node is not in the last slot, swap it
with the last slot, fix only the moved-in node's idx, sift that node down
and, when it did not move, up; finally pop_back and erase the id. -/
def removeNode (s : TimerState) (node : TNode) : TimerState :=
  let last := s.heap.length - 1
  let h2 :=
    if node.idx ≠ last then
      let h1 := (s.heap.set node.idx (setIdx (nodeAt s.heap last) node.idx)).set last
        (nodeAt s.heap node.idx)
      let r := shiftDown h1 node.idx
      if r.2 then r.1 else shiftUp r.1 node.idx
    else s.heap
  { s with heap := h2.dropLast, tmap := mapErase node.id s.tmap }

/-- Source DelTimer(id): an absent id returns false without touching the
structures; otherwise the node the map points at (the unique heap node with
this id) goes through _delNode, that is _removeNode plus delete. -/
def delTimer (s : TimerState) (i : Int) : TimerState × Bool :=
  if i ∈ s.tmap then
    match s.heap.find? (fun n => n.id == i) with
    | some node => (removeNode s node, true)
    | none => (s, true)
  else (s, false)

/-- Body of one due firing in ExpireTimer, after the callback invocation:
_delNode for a one-shot node, _removeNode then _addTimer for a repeater. -/
def expireStep (s : TimerState) (now : Nat) (node : TNode) : TimerState :=
  if node.is_loop then reAddTimer (removeNode s node) now node
  else removeNode s node

/-- The do-while of ExpireTimer with explicit fuel: inspect the root, stop
when it is in the future, otherwise fire it and continue while the heap is
nonempty.  The Bool records whether the loop exited by itself (the C++ call
returned) rather than by fuel exhaustion. -/
def expireLoop (now : Nat) : Nat → TimerState → TimerState × List TNode × Bool
  | 0, s => (s, [], false)
  | fuel + 1, s =>
    match s.heap with
    | [] => (s, [], true)
    | node :: _ =>
      if now < node.expire_ms then (s, [], true)
      else
        let r := expireLoop now fuel (expireStep s now node)
        (r.1, node :: r.2.1, r.2.2)

/-- Source ExpireTimer(): early return on an empty heap, then the do-while;
now is read once and fixed for the whole call. -/
def expireTimer (fuel : Nat) (s : TimerState) (now : Nat) :
    TimerState × List TNode × Bool :=
  if s.heap.isEmpty then (s, [], true) else expireLoop now fuel s

/-- State of MinHeapTimerLoop: the base engine plus the atomic_int tracking
the smallest timing ever requested. -/
structure LoopState where
  base : TimerState
  min_timing_time_ms : Int
deriving Repr, DecidableEq, Inhabited

/-- C++ conversion of the stored int to uint64_t performed by the
comparison min_timing_time_ms.load() > timing_time_ms. -/
def uint64OfInt (m : Int) : Nat := (m % 2 ^ 64).toNat

/-- Source MinHeapTimerLoop::_addTimer override: shrink the tracked minimum
when the requested timing compares below it (int promoted to uint64 for the
comparison, store converts the uint64 back to int), then run the same body
as the base _addTimer. -/
def loopAddTimer (ls : LoopState) (now timing : Nat) (lp : Bool) : LoopState × Int :=
  let m := if timing < uint64OfInt ls.min_timing_time_ms
           then wrap32 (timing : Int) else ls.min_timing_time_ms
  let r := addTimer ls.base now timing lp
  ({ base := r.1, min_timing_time_ms := m }, r.2)

/-- Sleep duration of one polling iteration: min_timing_time_ms / 10 with
C++ int division and no lower clamp. -/
def sleepMs (m : Int) : Int := Int.tdiv m 10

/-- One iteration of the while body launched by StartTimerLoop: an
ExpireTimer call, then a sleep whose duration is returned last. -/
def loopIteration (ls : LoopState) (fuel : Nat) (now : Nat) :
    LoopState × List TNode × Bool × Int :=
  let r := expireTimer fuel ls.base now
  ({ base := r.1, min_timing_time_ms := ls.min_timing_time_ms }, r.2.1, r.2.2,
   sleepMs ls.min_timing_time_ms)

/-! ### Invariants -/

/-- Heap order up to bound n, in parent form: every non-root slot below n is
no smaller than its parent slot. -/
def OrderedTo (h : Heap) (n : Nat) : Prop :=
  ∀ c, c < n → 1 ≤ c → ev h ((c - 1) / 2) ≤ ev h c

/-- Heap order of the whole backing vector. -/
def Ordered (h : Heap) : Prop := OrderedTo h h.length

/-- Recorded positions match true positions, up to bound n. -/
def IdxOkTo (h : Heap) (n : Nat) : Prop := ∀ i, i < n → (nodeAt h i).idx = i

/-- Recorded positions match true positions everywhere. -/
def IdxOk (h : Heap) : Prop := IdxOkTo h h.length

/-- Ids of the nodes in the heap, in heap order. -/
def heapIds (h : Heap) : List Int := h.map (·.id)

/-- Identity-relevant content of a node: everything except the volatile
heap position. -/
def key (n : TNode) : Int × Nat × Nat × Bool :=
  (n.id, n.expire_ms, n.timing_time_ms, n.is_loop)

/-- Keys of the heap nodes, in heap order. -/
def keys (h : Heap) : List (Int × Nat × Nat × Bool) := h.map key

/-- Full engine invariant: heap order, position consistency, distinct live
ids, the map keyed by exactly the live ids, every issued id at most the
counter, and a nonnegative counter (it starts at 0 and is incremented). -/
def Inv (s : TimerState) : Prop :=
  Ordered s.heap ∧ IdxOk s.heap ∧ (heapIds s.heap).Nodup ∧
  s.tmap.Perm (heapIds s.heap) ∧ (∀ n ∈ s.heap, n.id ≤ s.count) ∧ 0 ≤ s.count

/-- The three-part state invariant in the exact shape of the specification:
children form of heap order, position consistency, and the lookup table
holding exactly the live ids. -/
def ClaimInv (s : TimerState) : Prop :=
  (∀ i c, c < s.heap.length → (c = 2 * i + 1 ∨ c = 2 * i + 2) →
    ev s.heap i ≤ ev s.heap c) ∧
  (∀ i, i < s.heap.length → (nodeAt s.heap i).idx = i) ∧
  (∀ k, k ∈ s.tmap ↔ k ∈ heapIds s.heap)


/-- A sequence of manual Sweep calls at the given times, each with enough
fuel for a one-shot heap to be swept to completion; returns the final state
and the concatenated callback-invocation trace. -/
def sweepSeq : TimerState → List Nat → TimerState × List TNode
  | s, [] => (s, [])
  | s, t :: ts =>
    let r := expireTimer (s.heap.length + 1) s t
    let r2 := sweepSeq r.1 ts
    (r2.1, r.2.1 ++ r2.2)

/-- Intermediate state of _shiftUp at cursor p: every non-root slot other
than p is at least its parent, and the slot above p is at most each child
of p. -/
def UpAt (h : Heap) (n p : Nat) : Prop :=
  (∀ c, c < n → 1 ≤ c → c ≠ p → ev h ((c - 1) / 2) ≤ ev h c) ∧
  (∀ c, c < n → (c = 2 * p + 1 ∨ c = 2 * p + 2) → 1 ≤ p → ev h ((p - 1) / 2) ≤ ev h c)
/-- Intermediate state of _shiftDown started at p with cursor q: every edge
not incident to q is ordered, the slot above q is at most each child of q,
and once the cursor has moved the edge into q is ordered as well. -/
def DownAt (h : Heap) (last p q : Nat) : Prop :=
  (∀ c, c < last → 1 ≤ c → (c - 1) / 2 ≠ q → c ≠ q → ev h ((c - 1) / 2) ≤ ev h c) ∧
  (∀ c, c < last → (c = 2 * q + 1 ∨ c = 2 * q + 2) → 1 ≤ q → ev h ((q - 1) / 2) ≤ ev h c) ∧
  (q ≠ p → 1 ≤ q → ev h ((q - 1) / 2) ≤ ev h q)
/-- All repeating nodes have a positive interval and their reinsertion
expiration does not wrap 64 bits at the given sweep time. -/
def GoodLoops (now : Nat) (h : Heap) : Prop :=
  ∀ n ∈ h, n.is_loop = true → 0 < n.timing_time_ms ∧ now + n.timing_time_ms < 2 ^ 64
/-- A key is due at time now when its recorded expiration has passed. -/
def dueKey (now : Nat) (k : Int × Nat × Nat × Bool) : Bool := decide (k.2.1 ≤ now)

/-- Concrete repeating node: scheduled with a 5 ms interval at time 0. -/
def exNode : TNode :=
  { idx := 0, id := 1, expire_ms := 5, timing_time_ms := 5, is_loop := true }

/-- Engine state holding exactly exNode under id 1, counter at 1. -/
def exS1 : TimerState := { heap := [exNode], tmap := [1], count := 1 }

/-- The empty engine at counter 0, as constructed by the constructor. -/
def s0 : TimerState := { heap := [], tmap := [], count := 0 }

/-- Three one-shot timers with intervals 50, 10 and 30 ms scheduled at
time 0 (scenario A of the specification). -/
def sA : TimerState :=
  (addTimer (addTimer (addTimer s0 0 50 false).1 0 10 false).1 0 30 false).1

/-- Driver state with an empty engine and a tracked minimum of 5 ms. -/
def exLS : LoopState := { base := s0, min_timing_time_ms := 5 }

/-- Empty engine whose static counter has reached INT_MAX. -/
def exSMax : TimerState := { heap := [], tmap := [], count := int32Max }

/-- A due repeating node with interval 0. -/
def exBadNode : TNode :=
  { idx := 0, id := 1, expire_ms := 0, timing_time_ms := 0, is_loop := true }

/-- Engine state holding exactly exBadNode: a sweep at time 0 never exits. -/
def exBad : TimerState := { heap := [exBadNode], tmap := [1], count := 1 }

instance (h : Heap) (n : Nat) : Decidable (OrderedTo h n) := by
  unfold OrderedTo
  infer_instance

instance (h : Heap) : Decidable (Ordered h) := by
  unfold Ordered
  infer_instance

instance (h : Heap) (n : Nat) : Decidable (IdxOkTo h n) := by
  unfold IdxOkTo
  infer_instance

instance (h : Heap) : Decidable (IdxOk h) := by
  unfold IdxOk
  infer_instance

instance (s : TimerState) : Decidable (Inv s) := by
  unfold Inv
  infer_instance

instance (now : Nat) (h : Heap) : Decidable (GoodLoops now h) := by
  unfold GoodLoops
  infer_instance

/-! ### Basic list-access lemmas -/

theorem nodeAt_set_self {h : Heap} {i : Nat} (hi : i < h.length) (x : TNode) :
    nodeAt (h.set i x) i = x := by
  simp [nodeAt, List.getD, List.getElem?_set_self', hi]

theorem nodeAt_set_ne (h : Heap) {i j : Nat} (hij : i ≠ j) (x : TNode) :
    nodeAt (h.set i x) j = nodeAt h j := by
  simp [nodeAt, List.getD, List.getElem?_set_ne hij]

theorem nodeAt_mem {h : Heap} {i : Nat} (hi : i < h.length) : nodeAt h i ∈ h := by
  rw [nodeAt, List.getD_eq_getElem h default hi]
  exact List.getElem_mem hi

theorem nodeAt_append_left {h : Heap} {i : Nat} (hi : i < h.length) (x : TNode) :
    nodeAt (h ++ [x]) i = nodeAt h i := by
  simp [nodeAt, List.getD, List.getElem?_append_left hi]

theorem nodeAt_append_right (h : Heap) (x : TNode) : nodeAt (h ++ [x]) h.length = x := by
  simp [nodeAt, List.getD]

theorem nodeAt_dropLast {h : Heap} {i : Nat} (hi : i < h.length - 1) :
    nodeAt h.dropLast i = nodeAt h i := by
  simp only [nodeAt, List.getD, List.get?_eq_getElem?, List.getElem?_dropLast, hi, if_pos]

theorem length_swapFix (h : Heap) (i j : Nat) : (swapFix h i j).length = h.length := by
  simp [swapFix]

theorem nodeAt_swapFix_fst {h : Heap} {i j : Nat} (hi : i < h.length) (hj : j < h.length) :
    nodeAt (swapFix h i j) i = setIdx (nodeAt h j) i := by
  rcases eq_or_ne i j with rfl | hne
  · rw [swapFix, nodeAt_set_self (by simpa using hi)]
  · rw [swapFix, nodeAt_set_ne _ (Ne.symm hne), nodeAt_set_self hi]

theorem nodeAt_swapFix_snd {h : Heap} {i j : Nat} (hj : j < h.length) :
    nodeAt (swapFix h i j) j = setIdx (nodeAt h i) j := by
  rw [swapFix, nodeAt_set_self (by simpa using hj)]

theorem nodeAt_swapFix_other (h : Heap) {i j k : Nat} (hki : k ≠ i) (hkj : k ≠ j) :
    nodeAt (swapFix h i j) k = nodeAt h k := by
  rw [swapFix, nodeAt_set_ne _ (Ne.symm hkj), nodeAt_set_ne _ (Ne.symm hki)]

theorem ev_setIdx (n : TNode) (i : Nat) : (setIdx n i).expire_ms = n.expire_ms := rfl

theorem ev_swapFix_fst {h : Heap} {i j : Nat} (hi : i < h.length) (hj : j < h.length) :
    ev (swapFix h i j) i = ev h j := by
  rw [ev, nodeAt_swapFix_fst hi hj, ev_setIdx, ev]

theorem ev_swapFix_snd {h : Heap} {i j : Nat} (hj : j < h.length) :
    ev (swapFix h i j) j = ev h i := by
  rw [ev, nodeAt_swapFix_snd hj, ev_setIdx, ev]

theorem ev_swapFix_other (h : Heap) {i j k : Nat} (hki : k ≠ i) (hkj : k ≠ j) :
    ev (swapFix h i j) k = ev h k := by
  rw [ev, nodeAt_swapFix_other h hki hkj, ev]

/-! ### Permutation lemmas for swaps -/

theorem cons_set_perm {α : Type} (l : List α) (j : Nat) (hj : j < l.length) (x : α) :
    (l.get ⟨j, hj⟩ :: l.set j x).Perm (x :: l) := by
  induction l generalizing j with
  | nil => simp at hj
  | cons a t ih =>
    cases j with
    | zero => exact List.Perm.swap x a t
    | succ j =>
      have hj' : j < t.length := by simpa using hj
      simp only [List.get_eq_getElem, List.getElem_cons_succ, List.set_cons_succ]
      exact ((List.Perm.swap a (t[j]) (t.set j x)).trans
        (((ih j hj').cons a))).trans (List.Perm.swap x a t)

theorem set_swap_perm {α : Type} [DecidableEq α] (l : List α) (i j : Nat)
    (hi : i < l.length) (hj : j < l.length) :
    ((l.set i (l.get ⟨j, hj⟩)).set j (l.get ⟨i, hi⟩)).Perm l := by
  induction l generalizing i j with
  | nil => simp at hi
  | cons a t ih =>
    match i, j with
    | 0, 0 => simp
    | 0, j + 1 =>
      have hj' : j < t.length := by simpa using hj
      simpa using cons_set_perm t j hj' a
    | i + 1, 0 =>
      have hi' : i < t.length := by simpa using hi
      simpa using cons_set_perm t i hi' a
    | i + 1, j + 1 =>
      have hi' : i < t.length := by simpa using hi
      have hj' : j < t.length := by simpa using hj
      simpa using (ih i j hi' hj').cons a

theorem key_setIdx (n : TNode) (i : Nat) : key (setIdx n i) = key n := rfl

theorem keys_length (h : Heap) : (keys h).length = h.length := by simp [keys]

theorem keys_set (h : Heap) (i : Nat) (x : TNode) :
    keys (h.set i x) = (keys h).set i (key x) := List.map_set ..

theorem keys_get {h : Heap} {i : Nat} (hi : i < h.length) :
    (keys h).get ⟨i, by simpa [keys] using hi⟩ = key (nodeAt h i) := by
  rw [nodeAt, List.getD_eq_getElem h default hi]
  simp [keys]

theorem keys_swapFix {h : Heap} {i j : Nat} (hi : i < h.length) (hj : j < h.length) :
    (keys (swapFix h i j)).Perm (keys h) := by
  have hki : i < (keys h).length := by simpa [keys] using hi
  have hkj : j < (keys h).length := by simpa [keys] using hj
  rw [swapFix, keys_set, keys_set, key_setIdx, key_setIdx,
    ← keys_get hi, ← keys_get hj]
  exact set_swap_perm (keys h) i j hki hkj

/-! ### Canonical loop equations for the sifts -/

theorem lt_minChild (h : Heap) (last idx : Nat) : idx < minChild h last idx := by
  unfold minChild
  split <;> omega

theorem shiftUpF_congr : ∀ (f1 f2 : Nat) (h : Heap) (p : Nat), p < f1 → p < f2 →
    shiftUpF f1 h p = shiftUpF f2 h p := by
  intro f1
  induction f1 with
  | zero => intro f2 h p hp1 _; omega
  | succ f1 ih =>
    intro f2 h p hp1 hp2
    cases f2 with
    | zero => omega
    | succ f2 =>
      rw [shiftUpF, shiftUpF]
      split
      · rfl
      · next hne =>
        split
        · exact ih f2 _ _ (by omega) (by omega)
        · rfl

theorem shiftUp_eq (h : Heap) (pos : Nat) : shiftUp h pos =
    if (pos - 1) / 2 = pos then h
    else if lessThan h pos ((pos - 1) / 2) then
      shiftUp (swapFix h ((pos - 1) / 2) pos) ((pos - 1) / 2)
    else h := by
  rw [shiftUp, shiftUpF]
  split
  · rfl
  · next hne =>
    split
    · exact shiftUpF_congr pos ((pos - 1) / 2 + 1) _ _ (by omega) (by omega)
    · rfl

theorem shiftDownF_congr : ∀ (f1 : Nat) (last : Nat) (f2 : Nat) (h : Heap) (p : Nat),
    last - p ≤ f1 → last - p ≤ f2 →
    shiftDownF f1 last h p = shiftDownF f2 last h p := by
  intro f1
  induction f1 with
  | zero =>
    intro last f2 h p hp1 hp2
    cases f2 with
    | zero => rfl
    | succ f2 =>
      rw [shiftDownF, shiftDownF]
      rw [if_neg (by omega)]
  | succ f1 ih =>
    intro last f2 h p hp1 hp2
    cases f2 with
    | zero =>
      rw [shiftDownF, shiftDownF]
      rw [if_neg (by omega)]
    | succ f2 =>
      rw [shiftDownF, shiftDownF]
      split
      · next hl =>
        split
        · refine ih last f2 _ _ ?_ ?_ <;>
            (have h1 := lt_minChild h last p; omega)
        · rfl
      · rfl

theorem shiftDownAux_eq (last : Nat) (h : Heap) (idx : Nat) :
    shiftDownAux last h idx =
      if 2 * idx + 1 < last then
        if lessThan h (minChild h last idx) idx then
          shiftDownAux last (swapFix h idx (minChild h last idx)) (minChild h last idx)
        else (h, idx)
      else (h, idx) := by
  cases hf : last - idx with
  | zero =>
    rw [shiftDownAux, hf]
    rw [show shiftDownF 0 last h idx = (h, idx) from rfl]
    rw [if_neg (by omega)]
  | succ f =>
    rw [shiftDownAux, hf, shiftDownF]
    split
    · next hl =>
      split
      · rw [shiftDownAux]
        refine shiftDownF_congr f last _ _ _ ?_ ?_ <;>
          (have h1 := lt_minChild h last idx; omega)
      · rfl
    · rfl

/-! ### Sift-up correctness -/

theorem orderedTo_mono {h : Heap} {m n : Nat} (hmn : m ≤ n) (ho : OrderedTo h n) :
    OrderedTo h m := fun c hc h1 => ho c (lt_of_lt_of_le hc hmn) h1

theorem lessThan_true {h : Heap} {l r : Nat} (ht : lessThan h l r = true) :
    ev h l < ev h r := by simpa [lessThan] using ht

theorem lessThan_false {h : Heap} {l r : Nat} (hf : lessThan h l r = false) :
    ev h r ≤ ev h l := by
  have : ¬ (ev h l < ev h r) := by simpa [lessThan] using hf
  omega

theorem idx_setIdx (n : TNode) (i : Nat) : (setIdx n i).idx = i := rfl


theorem upAt_step {h : Heap} {n p : Nat} (hpn : p < n) (hnl : n ≤ h.length)
    (hup : UpAt h n p) (hp1 : 1 ≤ p)
    (hlt : ev h p < ev h ((p - 1) / 2)) :
    UpAt (swapFix h ((p - 1) / 2) p) n ((p - 1) / 2) := by
  have hp : p < h.length := lt_of_lt_of_le hpn hnl
  have hr : (p - 1) / 2 < p := by omega
  have hrl : (p - 1) / 2 < h.length := lt_trans hr hp
  have evr : ev (swapFix h ((p - 1) / 2) p) ((p - 1) / 2) = ev h p := ev_swapFix_fst hrl hp
  have evp : ev (swapFix h ((p - 1) / 2) p) p = ev h ((p - 1) / 2) := ev_swapFix_snd hp
  constructor
  · intro c hc hc1 hcr
    by_cases hcp : c = p
    · rw [hcp, evr, evp]
      exact le_of_lt hlt
    · by_cases hpp : (c - 1) / 2 = p
      · rw [hpp, evp, ev_swapFix_other h hcr hcp]
        exact hup.2 c hc (by omega) hp1
      · by_cases hpr : (c - 1) / 2 = (p - 1) / 2
        · rw [hpr, evr, ev_swapFix_other h hcr hcp]
          exact le_trans (le_of_lt hlt) (by
            have := hup.1 c hc hc1 hcp
            rwa [hpr] at this)
        · rw [ev_swapFix_other h hpr hpp, ev_swapFix_other h hcr hcp]
          exact hup.1 c hc hc1 hcp
  · intro c hc hcc hr1
    have hparr : ((p - 1) / 2 - 1) / 2 ≠ (p - 1) / 2 := by omega
    have hparp : ((p - 1) / 2 - 1) / 2 ≠ p := by omega
    rw [ev_swapFix_other h hparr hparp]
    by_cases hcp : c = p
    · rw [hcp, evp]
      exact hup.1 ((p - 1) / 2) (lt_trans hr hpn) hr1 (by omega)
    · have hcr : c ≠ (p - 1) / 2 := by omega
      rw [ev_swapFix_other h hcr hcp]
      refine le_trans (hup.1 ((p - 1) / 2) (lt_trans hr hpn) hr1 (by omega)) ?_
      have := hup.1 c hc (by omega) hcp
      rwa [show (c - 1) / 2 = (p - 1) / 2 by omega] at this

theorem shiftUp_ordered {n : Nat} (p : Nat) (h : Heap) (hpn : p < n) (hnl : n ≤ h.length)
    (hup : UpAt h n p) : OrderedTo (shiftUp h p) n := by
  induction p using Nat.strong_induction_on generalizing h with
  | _ p ih =>
  rw [shiftUp_eq]
  split
  · next heq =>
    intro c hc hc1
    exact hup.1 c hc hc1 (by omega)
  · next hne =>
    have hp1 : 1 ≤ p := by omega
    have hr : (p - 1) / 2 < p := by omega
    split
    · next hlt =>
      exact ih ((p - 1) / 2) hr _ (lt_trans hr hpn) (by rw [length_swapFix]; exact hnl)
        (upAt_step hpn hnl hup hp1 (lessThan_true hlt))
    · next hge =>
      intro c hc hc1
      by_cases hcp : c = p
      · subst hcp
        exact lessThan_false (Bool.not_eq_true _ ▸ hge)
      · exact hup.1 c hc hc1 hcp

theorem shiftUp_basic (p : Nat) (h : Heap) (hp : p < h.length) :
    (shiftUp h p).length = h.length ∧ (keys (shiftUp h p)).Perm (keys h) ∧
    (∀ q, p < q → nodeAt (shiftUp h p) q = nodeAt h q) ∧
    (∀ n, p < n → IdxOkTo h n → IdxOkTo (shiftUp h p) n) := by
  induction p using Nat.strong_induction_on generalizing h with
  | _ p ih =>
  rw [shiftUp_eq]
  split
  · exact ⟨rfl, List.Perm.refl _, fun q _ => rfl, fun n _ hik => hik⟩
  · next hne =>
    have hp1 : 1 ≤ p := by omega
    have hr : (p - 1) / 2 < p := by omega
    split
    · next hlt =>
      have hrl : (p - 1) / 2 < h.length := lt_trans hr hp
      have hswl : (swapFix h ((p - 1) / 2) p).length = h.length := length_swapFix ..
      obtain ⟨l1, l2, l3, l4⟩ :=
        ih ((p - 1) / 2) hr (swapFix h ((p - 1) / 2) p) (by rw [hswl]; exact hrl)
      refine ⟨by rw [l1, hswl], l2.trans (keys_swapFix hrl hp), ?_, ?_⟩
      · intro q hq
        rw [l3 q (lt_trans hr hq), nodeAt_swapFix_other h (by omega) (by omega)]
      · intro n hpn hik
        refine l4 n (lt_trans hr hpn) ?_
        intro i hin
        by_cases hir : i = (p - 1) / 2
        · subst hir
          rw [nodeAt_swapFix_fst hrl hp, idx_setIdx]
        · by_cases hip : i = p
          · subst hip
            rw [nodeAt_swapFix_snd hp, idx_setIdx]
          · rw [nodeAt_swapFix_other h hir hip]
            exact hik i hin
    · exact ⟨rfl, List.Perm.refl _, fun q _ => rfl, fun n _ hik => hik⟩

/-! ### Sift-down correctness -/

theorem minChild_cases (h : Heap) (last idx : Nat) :
    minChild h last idx = 2 * idx + 1 ∨ minChild h last idx = 2 * idx + 2 := by
  unfold minChild
  split
  · exact Or.inr rfl
  · exact Or.inl rfl

theorem minChild_lt_last {h : Heap} {last idx : Nat} (hl : 2 * idx + 1 < last) :
    minChild h last idx < last := by
  unfold minChild
  split
  · next hc => exact hc.1
  · exact hl

theorem minChild_le {h : Heap} {last idx : Nat} (_hl : 2 * idx + 1 < last) {c : Nat}
    (hc : c < last) (hcc : c = 2 * idx + 1 ∨ c = 2 * idx + 2) :
    ev h (minChild h last idx) ≤ ev h c := by
  unfold minChild
  split
  · next hcond =>
    have h1 : ev h (2 * idx + 2) ≤ ev h (2 * idx + 1) :=
      lessThan_false (Bool.not_eq_true _ ▸ hcond.2)
    rcases hcc with rfl | rfl
    · exact h1
    · exact le_refl _
  · next hcond =>
    rcases hcc with rfl | rfl
    · exact le_refl _
    · have hlt : lessThan h (2 * idx + 1) (2 * idx + 2) = true := by
        by_contra hx
        exact hcond ⟨hc, hx⟩
      exact le_of_lt (lessThan_true hlt)

theorem idxOkTo_swapFix {h : Heap} {n i j : Nat} (hi : i < h.length) (hj : j < h.length)
    (hik : IdxOkTo h n) : IdxOkTo (swapFix h i j) n := by
  intro k hk
  by_cases hki : k = i
  · rw [hki, nodeAt_swapFix_fst hi hj, idx_setIdx]
  · by_cases hkj : k = j
    · rw [hkj, nodeAt_swapFix_snd hj, idx_setIdx]
    · rw [nodeAt_swapFix_other h hki hkj]
      exact hik k hk


theorem downAt_step {h : Heap} {last p q : Nat} (_hpq : p ≤ q) (hql : q < last)
    (hll : last ≤ h.length) (hd : DownAt h last p q) (hl : 2 * q + 1 < last)
    (hlt : ev h (minChild h last q) < ev h q) :
    DownAt (swapFix h q (minChild h last q)) last p (minChild h last q) := by
  have hqm : q < minChild h last q := lt_minChild h last q
  have hml : minChild h last q < last := minChild_lt_last hl
  have hqh : q < h.length := lt_of_lt_of_le hql hll
  have hmh : minChild h last q < h.length := lt_of_lt_of_le hml hll
  have hparm : (minChild h last q - 1) / 2 = q := by
    rcases minChild_cases h last q with hm | hm <;> omega
  have evq : ev (swapFix h q (minChild h last q)) q = ev h (minChild h last q) :=
    ev_swapFix_fst hqh hmh
  have evm : ev (swapFix h q (minChild h last q)) (minChild h last q) = ev h q :=
    ev_swapFix_snd hmh
  refine ⟨?_, ?_, ?_⟩
  · intro c hc hc1 hpar hcm
    by_cases hcq : c = q
    · rw [hcq, evq]
      have hq1 : 1 ≤ q := by omega
      have hpq2 : (q - 1) / 2 ≠ q := by omega
      have hpqm : (q - 1) / 2 ≠ minChild h last q := by omega
      rw [ev_swapFix_other h hpq2 hpqm]
      exact hd.2.1 (minChild h last q) hml (minChild_cases h last q) hq1
    · by_cases hparq : (c - 1) / 2 = q
      · rw [hparq, evq, ev_swapFix_other h hcq hcm]
        exact minChild_le hl hc (by omega)
      · rw [ev_swapFix_other h hparq hpar, ev_swapFix_other h hcq hcm]
        exact hd.1 c hc hc1 hparq hcq
  · intro c hc hcc hm1
    rw [hparm, evq]
    have hcq : c ≠ q := by omega
    have hcm : c ≠ minChild h last q := by omega
    rw [ev_swapFix_other h hcq hcm]
    have := hd.1 c hc (by omega) (by omega) hcq
    rwa [show (c - 1) / 2 = minChild h last q by omega] at this
  · intro _ _
    rw [hparm, evq, evm]
    exact le_of_lt hlt

theorem shiftDownAux_spec (last p : Nat) :
    ∀ m q h, last - q ≤ m → p ≤ q → q < last → last ≤ h.length → DownAt h last p q →
    (shiftDownAux last h q).1.length = h.length ∧
    ((keys (shiftDownAux last h q).1).Perm (keys h)) ∧
    (∀ u, last ≤ u → nodeAt (shiftDownAux last h q).1 u = nodeAt h u) ∧
    (IdxOkTo h last → IdxOkTo (shiftDownAux last h q).1 last) ∧
    q ≤ (shiftDownAux last h q).2 ∧
    (((shiftDownAux last h q).2 = p ∧ (shiftDownAux last h q).1 = h ∧ UpAt h last p) ∨
      (p < (shiftDownAux last h q).2 ∧ OrderedTo (shiftDownAux last h q).1 last)) := by
  intro m
  induction m with
  | zero => intro q h hm hpq hql; omega
  | succ m ih =>
    intro q h hm hpq hql hll hd
    rw [shiftDownAux_eq]
    split
    · next hl =>
      split
      · next hlt =>
        have hqm : q < minChild h last q := lt_minChild h last q
        have hml : minChild h last q < last := minChild_lt_last hl
        have hqh : q < h.length := lt_of_lt_of_le hql hll
        have hmh : minChild h last q < h.length := lt_of_lt_of_le hml hll
        have hstep := downAt_step hpq hql hll hd hl (lessThan_true hlt)
        have hlen : (swapFix h q (minChild h last q)).length = h.length := length_swapFix ..
        obtain ⟨l1, l2, l3, l4, l5, l6⟩ :=
          ih (minChild h last q) (swapFix h q (minChild h last q)) (by omega)
            (by omega) hml (by rw [hlen]; exact hll) hstep
        refine ⟨by rw [l1, hlen], l2.trans (keys_swapFix hqh hmh), ?_, ?_, by omega, ?_⟩
        · intro u hu
          rw [l3 u hu, nodeAt_swapFix_other h (by omega) (by omega)]
        · intro hik
          exact l4 (idxOkTo_swapFix hqh hmh hik)
        · rcases l6 with ⟨he, _, _⟩ | ⟨hgt, hord⟩
          · omega
          · exact Or.inr ⟨by omega, hord⟩
      · next hge =>
        have hxm : ev h q ≤ ev h (minChild h last q) :=
          lessThan_false (Bool.not_eq_true _ ▸ hge)
        have hchild : ∀ c, c < last → 1 ≤ c → (c - 1) / 2 = q → ev h q ≤ ev h c := by
          intro c hc hc1 hparc
          exact le_trans hxm (minChild_le hl hc (by omega))
        refine ⟨rfl, List.Perm.refl _, fun u _ => rfl, fun hik => hik, le_refl q, ?_⟩
        by_cases hqp : q = p
        · refine Or.inl ⟨hqp, rfl, ?_, ?_⟩
          · intro c hc hc1 hcp
            by_cases hparc : (c - 1) / 2 = p
            · rw [hparc, ← hqp]
              exact hchild c hc hc1 (by omega)
            · exact hd.1 c hc hc1 (by omega) (by omega)
          · intro c hc hcc hp1
            rw [← hqp]
            exact hd.2.1 c hc (by rw [← hqp] at hcc; exact hcc) (by omega)
        · refine Or.inr ⟨by omega, ?_⟩
          intro c hc hc1
          by_cases hcq : c = q
          · rw [hcq]
            exact hd.2.2 hqp (by omega)
          · by_cases hparc : (c - 1) / 2 = q
            · rw [hparc]
              exact hchild c hc hc1 hparc
            · exact hd.1 c hc hc1 hparc hcq
    · next hl =>
      refine ⟨rfl, List.Perm.refl _, fun u _ => rfl, fun hik => hik, le_refl q, ?_⟩
      by_cases hqp : q = p
      · refine Or.inl ⟨hqp, rfl, ?_, ?_⟩
        · intro c hc hc1 hcp
          by_cases hparc : (c - 1) / 2 = p
          · omega
          · exact hd.1 c hc hc1 (by omega) (by omega)
        · intro c hc hcc hp1
          rw [← hqp] at hcc
          omega
      · refine Or.inr ⟨by omega, ?_⟩
        intro c hc hc1
        by_cases hcq : c = q
        · rw [hcq]
          exact hd.2.2 hqp (by omega)
        · by_cases hparc : (c - 1) / 2 = q
          · omega
          · exact hd.1 c hc hc1 hparc hcq

/-! ### Removal correctness -/

theorem heap_eq_dropLast_append {h : Heap} (hne : 1 ≤ h.length) :
    h = h.dropLast ++ [nodeAt h (h.length - 1)] := by
  have hne' : h ≠ [] := by
    intro e
    rw [e] at hne
    simp at hne
  conv_lhs => rw [← List.dropLast_append_getLast hne']
  congr 1
  rw [nodeAt, List.getD_eq_getElem h default (by omega), List.getLast_eq_getElem]

theorem keys_dropLast_append {h : Heap} (hne : 1 ≤ h.length) :
    keys h.dropLast ++ [key (nodeAt h (h.length - 1))] = keys h := by
  conv_rhs => rw [heap_eq_dropLast_append hne]
  simp [keys]

theorem orderedTo_dropLast {h : Heap} (hord : OrderedTo h (h.length - 1)) :
    Ordered h.dropLast := by
  intro c hc hc1
  rw [List.length_dropLast] at hc
  show ev h.dropLast ((c - 1) / 2) ≤ ev h.dropLast c
  rw [ev, ev, nodeAt_dropLast (by omega), nodeAt_dropLast hc]
  exact hord c hc hc1

theorem idxOkTo_dropLast {h : Heap} (hik : IdxOkTo h (h.length - 1)) : IdxOk h.dropLast := by
  intro i hi
  rw [List.length_dropLast] at hi
  rw [nodeAt_dropLast hi]
  exact hik i hi

theorem removeNode_eq_last {s : TimerState} {node : TNode}
    (hkl : node.idx = s.heap.length - 1) :
    removeNode s node =
      { s with heap := s.heap.dropLast, tmap := mapErase node.id s.tmap } := by
  rw [removeNode]
  simp [hkl]

theorem removeNode_eq_swap {s : TimerState} {node : TNode}
    (hkl : node.idx ≠ s.heap.length - 1) :
    removeNode s node =
      { s with
        heap :=
          (if (shiftDown ((s.heap.set node.idx
              (setIdx (nodeAt s.heap (s.heap.length - 1)) node.idx)).set
              (s.heap.length - 1) (nodeAt s.heap node.idx)) node.idx).2 then
            (shiftDown ((s.heap.set node.idx
              (setIdx (nodeAt s.heap (s.heap.length - 1)) node.idx)).set
              (s.heap.length - 1) (nodeAt s.heap node.idx)) node.idx).1
          else
            shiftUp (shiftDown ((s.heap.set node.idx
              (setIdx (nodeAt s.heap (s.heap.length - 1)) node.idx)).set
              (s.heap.length - 1) (nodeAt s.heap node.idx)) node.idx).1 node.idx).dropLast,
        tmap := mapErase node.id s.tmap } := by
  rw [removeNode]
  simp [hkl]

theorem removeNode_spec (s : TimerState) (node : TNode)
    (hord : Ordered s.heap) (hidx : IdxOk s.heap)
    (hk : node.idx < s.heap.length) (hmem : nodeAt s.heap node.idx = node) :
    (removeNode s node).heap.length = s.heap.length - 1 ∧
    Ordered (removeNode s node).heap ∧
    IdxOk (removeNode s node).heap ∧
    (keys (removeNode s node).heap ++ [key node]).Perm (keys s.heap) ∧
    (removeNode s node).tmap = mapErase node.id s.tmap ∧
    (removeNode s node).count = s.count := by
  have hn1 : 1 ≤ s.heap.length := by omega
  by_cases hkl : node.idx = s.heap.length - 1
  · rw [removeNode_eq_last hkl]
    refine ⟨by simp, ?_, ?_, ?_, rfl, rfl⟩
    · exact orderedTo_dropLast (orderedTo_mono (by omega) hord)
    · exact idxOkTo_dropLast (fun i hi => hidx i (by omega))
    · rw [show key node = key (nodeAt s.heap (s.heap.length - 1)) by rw [← hkl, hmem]]
      rw [keys_dropLast_append hn1]
  · -- the removed node is swapped with the last slot, then the displaced
    -- node sifts down or up; the bound excludes the parked last slot
    have hklt : node.idx < s.heap.length - 1 := by omega
    rw [removeNode_eq_swap hkl]
    set n := s.heap.length with hn
    set k := node.idx with hkdef
    set h1 := (s.heap.set k (setIdx (nodeAt s.heap (n - 1)) k)).set (n - 1)
      (nodeAt s.heap k) with hh1
    have hlen1 : h1.length = n := by simp [hh1, hn]
    have hat_k : nodeAt h1 k = setIdx (nodeAt s.heap (n - 1)) k := by
      rw [hh1, nodeAt_set_ne _ (by omega), nodeAt_set_self (by simpa using hk)]
    have hat_last : nodeAt h1 (n - 1) = node := by
      rw [hh1, nodeAt_set_self (by simp; omega), hmem]
    have hat_other : ∀ c, c ≠ k → c ≠ n - 1 → nodeAt h1 c = nodeAt s.heap c := by
      intro c hck hcl
      rw [hh1, nodeAt_set_ne _ (Ne.symm hcl), nodeAt_set_ne _ (Ne.symm hck)]
    have hev_k : ev h1 k = ev s.heap (n - 1) := by
      rw [ev, hat_k, ev_setIdx, ev]
    have hev_other : ∀ c, c ≠ k → c ≠ n - 1 → ev h1 c = ev s.heap c := by
      intro c hck hcl
      rw [ev, hat_other c hck hcl, ev]
    have hkeys1 : (keys h1).Perm (keys s.heap) := by
      have hkk : k < (keys s.heap).length := by simpa [keys] using hk
      have hlk : n - 1 < (keys s.heap).length := by simp [keys, hn]; omega
      rw [hh1, keys_set, keys_set, key_setIdx, ← keys_get hk,
        ← keys_get (show n - 1 < s.heap.length by omega)]
      exact set_swap_perm (keys s.heap) k (n - 1) hkk hlk
    have hdown : DownAt h1 (n - 1) k k := by
      refine ⟨?_, ?_, fun hqp _ => absurd rfl hqp⟩
      · intro c hc hc1 hpar hck
        rw [hev_other c hck (by omega), hev_other ((c - 1) / 2) hpar (by omega)]
        exact hord c (by omega) hc1
      · intro c hc hcc hk1
        have hck : c ≠ k := by omega
        have hpk : (k - 1) / 2 ≠ k := by omega
        rw [hev_other c hck (by omega), hev_other ((k - 1) / 2) hpk (by omega)]
        refine le_trans (hord k (by omega) hk1) ?_
        have := hord c (by omega) (by omega)
        rwa [show (c - 1) / 2 = k by omega] at this
    have hik1 : IdxOkTo h1 (n - 1) := by
      intro i hi
      by_cases hikk : i = k
      · rw [hikk, hat_k, idx_setIdx]
      · rw [hat_other i hikk (by omega)]
        exact hidx i (by omega)
    -- the sift bound computed by _shiftDown is n - 1
    have hbound : h1.length - 1 = n - 1 := by rw [hlen1]
    obtain ⟨a1, a2, a3, a4, a5, a6⟩ :=
      shiftDownAux_spec (n - 1) k (n - 1 - k) k h1 (le_refl _)
        (le_refl k) hklt (by omega) hdown
    have hsd : shiftDown h1 k =
        ((shiftDownAux (n - 1) h1 k).1, decide (k < (shiftDownAux (n - 1) h1 k).2)) := by
      rw [shiftDown, hbound]
    set h2 := if (shiftDown h1 k).2 then (shiftDown h1 k).1
      else shiftUp (shiftDown h1 k).1 k with hh2
    have hfacts : h2.length = n ∧ OrderedTo h2 (n - 1) ∧ IdxOkTo h2 (n - 1) ∧
        (keys h2).Perm (keys s.heap) ∧ nodeAt h2 (n - 1) = node := by
      by_cases hmoved : k < (shiftDownAux (n - 1) h1 k).2
      · have hb : (shiftDown h1 k).2 = true := by rw [hsd]; simpa using hmoved
        have hordg : OrderedTo (shiftDownAux (n - 1) h1 k).1 (n - 1) := by
          rcases a6 with ⟨he, _, _⟩ | ⟨_, hg⟩
          · omega
          · exact hg
        rw [hh2, hb, if_pos rfl, hsd]
        exact ⟨by rw [a1, hlen1], hordg, a4 hik1, a2.trans hkeys1,
          by rw [a3 (n - 1) (le_refl _), hat_last]⟩
      · have hb : (shiftDown h1 k).2 = false := by rw [hsd]; simpa using hmoved
        have heqk : (shiftDownAux (n - 1) h1 k).2 = k := by omega
        rcases a6 with ⟨_, hsame, hup⟩ | ⟨hg, _⟩
        · rw [hh2, hb, if_neg (by simp), hsd, hsame]
          obtain ⟨b1, b2, b3, b4⟩ := shiftUp_basic k h1 (by omega)
          refine ⟨by rw [b1, hlen1], ?_, b4 (n - 1) hklt hik1, b2.trans hkeys1, ?_⟩
          · exact shiftUp_ordered k h1 hklt (by omega) hup
          · rw [b3 (n - 1) hklt, hat_last]
        · omega
    refine ⟨by simp [hfacts.1], orderedTo_dropLast (by rw [hfacts.1]; exact hfacts.2.1),
      idxOkTo_dropLast (by rw [hfacts.1]; exact hfacts.2.2.1), ?_, rfl, rfl⟩
    have hkd : keys h2.dropLast ++ [key (nodeAt h2 (n - 1))] = keys h2 := by
      have h9 := keys_dropLast_append (show 1 ≤ h2.length by rw [hfacts.1]; omega)
      rwa [hfacts.1] at h9
    rw [show key node = key (nodeAt h2 (n - 1)) by rw [hfacts.2.2.2.2], hkd]
    exact hfacts.2.2.2.1

/-! ### Insertion correctness -/

theorem push_shiftUp_spec (h : Heap) (node : TNode) (hidx : node.idx = h.length)
    (hord : Ordered h) (hik : IdxOk h) :
    (shiftUp (h ++ [node]) h.length).length = h.length + 1 ∧
    Ordered (shiftUp (h ++ [node]) h.length) ∧
    IdxOk (shiftUp (h ++ [node]) h.length) ∧
    (keys (shiftUp (h ++ [node]) h.length)).Perm (key node :: keys h) := by
  have hlen : (h ++ [node]).length = h.length + 1 := by simp
  have hup : UpAt (h ++ [node]) (h.length + 1) h.length := by
    constructor
    · intro c hc hc1 hcn
      have hcl : c < h.length := by omega
      show ev (h ++ [node]) ((c - 1) / 2) ≤ ev (h ++ [node]) c
      rw [ev, ev, nodeAt_append_left hcl,
        nodeAt_append_left (show (c - 1) / 2 < h.length by omega)]
      exact hord c hcl hc1
    · intro c hc hcc _
      omega
  have hikh : IdxOkTo (h ++ [node]) (h.length + 1) := by
    intro i hi
    by_cases hin : i = h.length
    · rw [hin, nodeAt_append_right, hidx]
    · rw [nodeAt_append_left (by omega)]
      exact hik i (by omega)
  obtain ⟨b1, b2, b3, b4⟩ := shiftUp_basic h.length (h ++ [node]) (by simp)
  refine ⟨by rw [b1, hlen], ?_, ?_, ?_⟩
  · have := shiftUp_ordered h.length (h ++ [node]) (by omega) (by omega) hup
    rw [Ordered, b1, hlen]
    exact this
  · rw [IdxOk, b1, hlen]
    exact b4 (h.length + 1) (by omega) hikh
  · refine b2.trans ?_
    rw [show keys (h ++ [node]) = keys h ++ [key node] by simp [keys]]
    exact List.perm_append_singleton _ _

theorem wrap32_small {x : Int} (h1 : int32Min ≤ x) (h2 : x ≤ int32Max) : wrap32 x = x := by
  simp only [wrap32, int32Min, int32Max] at *
  omega

theorem countStep_eq {c : Int} (h0 : 0 ≤ c) (hm : c < int32Max) : countStep c = c + 1 := by
  simp only [countStep, wrap32, int32Max] at *
  omega

theorem heapIds_eq_keys (h : Heap) : heapIds h = (keys h).map Prod.fst := by
  simp [heapIds, keys, key]

theorem mapInsert_perm (k : Int) (l : List Int) (hk : k ∉ l) :
    (mapInsert k l).Perm (k :: l) := by
  induction l with
  | nil => simp [mapInsert]
  | cons x xs ih =>
    rw [mapInsert]
    split
    · exact List.Perm.refl _
    · split
      · next heq => exact absurd (heq ▸ List.mem_cons_self x xs) hk
      · have hk' : k ∉ xs := fun hm => hk (List.mem_cons_of_mem x hm)
        exact ((ih hk').cons x).trans (List.Perm.swap k x xs)

theorem insertNode_inv (s : TimerState) (node2 : TNode)
    (hid : node2.id = countStep s.count) (hidx : node2.idx = s.heap.length)
    (hinv : Inv s) (hcm : s.count < int32Max) :
    Inv { heap := shiftUp (s.heap ++ [node2]) s.heap.length,
          tmap := mapInsert node2.id s.tmap, count := node2.id } ∧
    (keys (shiftUp (s.heap ++ [node2]) s.heap.length)).Perm (key node2 :: keys s.heap) ∧
    node2.id = s.count + 1 := by
  obtain ⟨hord, hik, hnd, hpm, hle, hnn⟩ := hinv
  have hid1 : node2.id = s.count + 1 := by rw [hid, countStep_eq hnn hcm]
  obtain ⟨p1, p2, p3, p4⟩ := push_shiftUp_spec s.heap node2 hidx hord hik
  have hfresh : node2.id ∉ heapIds s.heap := by
    intro hm
    obtain ⟨n, hn, he⟩ := List.mem_map.mp hm
    have := hle n hn
    omega
  have hids : (heapIds (shiftUp (s.heap ++ [node2]) s.heap.length)).Perm
      (node2.id :: heapIds s.heap) := by
    rw [heapIds_eq_keys, heapIds_eq_keys]
    exact p4.map Prod.fst
  have hfresh2 : node2.id ∉ s.tmap := fun hm => hfresh ((hpm.mem_iff).mp hm)
  refine ⟨⟨p2, p3, ?_, ?_, ?_, show (0 : Int) ≤ node2.id by omega⟩, p4, hid1⟩
  · exact (hids.nodup_iff).mpr (List.nodup_cons.mpr ⟨hfresh, hnd⟩)
  · exact ((mapInsert_perm node2.id s.tmap hfresh2).trans (hpm.cons node2.id)).trans hids.symm
  · intro n hn
    show n.id ≤ node2.id
    have hmm : n.id ∈ node2.id :: heapIds s.heap := by
      refine (hids.mem_iff).mp ?_
      exact List.mem_map.mpr ⟨n, hn, rfl⟩
    rcases List.mem_cons.mp hmm with he | hm
    · omega
    · obtain ⟨m, hmh, hme⟩ := List.mem_map.mp hm
      have := hle m hmh
      omega

theorem addTimer_eq (s : TimerState) (now timing : Nat) (lp : Bool) :
    addTimer s now timing lp =
      ({ heap := shiftUp (s.heap ++
          [⟨s.heap.length, countStep s.count, (now + timing) % 2 ^ 64, timing, lp⟩])
          s.heap.length,
         tmap := mapInsert (countStep s.count) s.tmap, count := countStep s.count },
       countStep s.count) := by
  simp [addTimer]

theorem reAddTimer_eq (s : TimerState) (now : Nat) (node : TNode) :
    reAddTimer s now node =
      { heap := shiftUp (s.heap ++
          [{ node with
              idx := s.heap.length, id := countStep s.count,
              expire_ms := (now + node.timing_time_ms) % 2 ^ 64 }]) s.heap.length,
        tmap := mapInsert (countStep s.count) s.tmap, count := countStep s.count } := by
  simp [reAddTimer]

theorem addTimer_inv (s : TimerState) (now timing : Nat) (lp : Bool)
    (hinv : Inv s) (hcm : s.count < int32Max) :
    Inv (addTimer s now timing lp).1 ∧
    (keys (addTimer s now timing lp).1.heap).Perm
      ((s.count + 1, (now + timing) % 2 ^ 64, timing, lp) :: keys s.heap) ∧
    (addTimer s now timing lp).2 = s.count + 1 ∧
    (addTimer s now timing lp).1.count = s.count + 1 ∧
    (addTimer s now timing lp).1.tmap = mapInsert (s.count + 1) s.tmap := by
  have hstep : countStep s.count = s.count + 1 := countStep_eq hinv.2.2.2.2.2 hcm
  obtain ⟨q1, q2, q3⟩ := insertNode_inv s
    ⟨s.heap.length, countStep s.count, (now + timing) % 2 ^ 64, timing, lp⟩ rfl rfl hinv hcm
  rw [addTimer_eq]
  refine ⟨q1, ?_, hstep, hstep, by rw [hstep]⟩
  have : key (⟨s.heap.length, countStep s.count, (now + timing) % 2 ^ 64, timing, lp⟩ : TNode)
      = (s.count + 1, (now + timing) % 2 ^ 64, timing, lp) := by
    simp [key, hstep]
  rw [← this]
  exact q2

theorem reAddTimer_inv (s : TimerState) (now : Nat) (node : TNode)
    (hinv : Inv s) (hcm : s.count < int32Max) :
    Inv (reAddTimer s now node) ∧
    (keys (reAddTimer s now node).heap).Perm
      ((s.count + 1, (now + node.timing_time_ms) % 2 ^ 64, node.timing_time_ms,
        node.is_loop) :: keys s.heap) ∧
    (reAddTimer s now node).count = s.count + 1 ∧
    (reAddTimer s now node).tmap = mapInsert (s.count + 1) s.tmap := by
  have hstep : countStep s.count = s.count + 1 := countStep_eq hinv.2.2.2.2.2 hcm
  obtain ⟨q1, q2, q3⟩ := insertNode_inv s
    { node with
        idx := s.heap.length, id := countStep s.count,
        expire_ms := (now + node.timing_time_ms) % 2 ^ 64 } rfl rfl hinv hcm
  rw [reAddTimer_eq]
  refine ⟨q1, ?_, hstep, by rw [hstep]⟩
  have : key ({ node with
      idx := s.heap.length, id := countStep s.count,
      expire_ms := (now + node.timing_time_ms) % 2 ^ 64 })
      = (s.count + 1, (now + node.timing_time_ms) % 2 ^ 64, node.timing_time_ms,
        node.is_loop) := by
    simp [key, hstep]
  rw [← this]
  exact q2

/-! ### State-level invariant preservation -/

theorem mapErase_eq_self {k : Int} {l : List Int} (hk : k ∉ l) : mapErase k l = l := by
  rw [mapErase]
  refine List.filter_eq_self.mpr ?_
  intro a ha
  simp only [bne_iff_ne, ne_eq]
  intro he
  exact hk (he ▸ ha)

theorem mapErase_append (k : Int) (l1 l2 : List Int) :
    mapErase k (l1 ++ l2) = mapErase k l1 ++ mapErase k l2 := List.filter_append ..

theorem mapErase_perm {l1 l2 : List Int} (k : Int) (hp : l1.Perm l2) :
    (mapErase k l1).Perm (mapErase k l2) := hp.filter _

theorem mapErase_singleton (k : Int) : mapErase k [k] = [] := by
  simp [mapErase]

theorem mem_of_nodeAt {node : TNode} {h : Heap} (hmem : node ∈ h) :
    ∃ i, i < h.length ∧ nodeAt h i = node := by
  obtain ⟨i, hi, he⟩ := List.mem_iff_getElem.mp hmem
  exact ⟨i, hi, by rw [nodeAt, List.getD_eq_getElem h default hi, he]⟩

theorem removeNode_inv (s : TimerState) (node : TNode) (hinv : Inv s)
    (hmem : node ∈ s.heap) :
    Inv (removeNode s node) ∧
    (removeNode s node).heap.length = s.heap.length - 1 ∧
    (keys (removeNode s node).heap ++ [key node]).Perm (keys s.heap) ∧
    (removeNode s node).tmap = mapErase node.id s.tmap ∧
    (removeNode s node).count = s.count ∧
    node.id ∉ heapIds (removeNode s node).heap := by
  obtain ⟨hord, hik, hnd, hpm, hle, hnn⟩ := hinv
  obtain ⟨i, hi, hat⟩ := mem_of_nodeAt hmem
  have hidx : node.idx = i := by
    rw [← hat, hik i hi]
  obtain ⟨r1, r2, r3, r4, r5, r6⟩ :=
    removeNode_spec s node hord hik (by omega) (by rw [hidx]; exact hat)
  have hids : (heapIds (removeNode s node).heap ++ [node.id]).Perm (heapIds s.heap) := by
    have := r4.map Prod.fst
    rw [heapIds_eq_keys, heapIds_eq_keys]
    simpa [key] using this
  have hnd2 : (heapIds (removeNode s node).heap ++ [node.id]).Nodup :=
    (hids.nodup_iff).mpr hnd
  have hnotin : node.id ∉ heapIds (removeNode s node).heap := by
    have hdis := (List.nodup_append.mp hnd2).2.2
    intro hmm
    exact hdis hmm (List.mem_singleton_self _)
  refine ⟨⟨r2, r3, (List.nodup_append.mp hnd2).1, ?_, ?_, by omega⟩,
    r1, r4, r5, r6, hnotin⟩
  · have he : mapErase node.id (heapIds (removeNode s node).heap ++ [node.id])
        = heapIds (removeNode s node).heap := by
      rw [mapErase_append, mapErase_singleton, List.append_nil, mapErase_eq_self hnotin]
    refine (mapErase_perm node.id hpm).trans ((mapErase_perm node.id hids.symm).trans ?_)
    rw [he]
  · intro m hm
    have hmid : m.id ∈ heapIds s.heap := by
      refine (hids.mem_iff).mp ?_
      exact List.mem_append_left _ (List.mem_map.mpr ⟨m, hm, rfl⟩)
    obtain ⟨m2, hm2, he2⟩ := List.mem_map.mp hmid
    have := hle m2 hm2
    omega

theorem delTimer_found (s : TimerState) (i : Int) (hinv : Inv s) (hmem : i ∈ s.tmap) :
    ∃ node, node ∈ s.heap ∧ node.id = i ∧ delTimer s i = (removeNode s node, true) := by
  have hmi : i ∈ heapIds s.heap := (hinv.2.2.2.1.mem_iff).mp hmem
  obtain ⟨n0, hn0, he0⟩ := List.mem_map.mp hmi
  have hfind : (s.heap.find? (fun n => n.id == i)).isSome := by
    rw [List.find?_isSome]
    exact ⟨n0, hn0, by simpa using he0⟩
  obtain ⟨node, hnode⟩ := Option.isSome_iff_exists.mp hfind
  refine ⟨node, List.mem_of_find?_eq_some hnode, by
    simpa using List.find?_some hnode, ?_⟩
  rw [delTimer, if_pos hmem, hnode]

theorem delTimer_not_found (s : TimerState) (i : Int) (hmem : i ∉ s.tmap) :
    delTimer s i = (s, false) := by
  rw [delTimer, if_neg hmem]



theorem key_expire (n : TNode) : (key n).2.1 = n.expire_ms := rfl

theorem key_mem_of_mem {n : TNode} {h : Heap} (hm : n ∈ h) : key n ∈ keys h :=
  List.mem_map.mpr ⟨n, hm, rfl⟩

theorem mem_of_key_mem {k : Int × Nat × Nat × Bool} {h : Heap} (hm : k ∈ keys h) :
    ∃ n ∈ h, key n = k := List.mem_map.mp hm

theorem nodeAt_cons_zero (node : TNode) (rest : Heap) : nodeAt (node :: rest) 0 = node := rfl

theorem root_min {h : Heap} (hord : Ordered h) : ∀ i, i < h.length → ev h 0 ≤ ev h i := by
  intro i
  induction i using Nat.strong_induction_on with
  | _ i ih =>
  intro hi
  rcases Nat.eq_zero_or_pos i with rfl | hpos
  · exact le_refl _
  · exact le_trans (ih ((i - 1) / 2) (by omega) (by omega)) (hord i hi hpos)

theorem root_min_mem {s : TimerState} {node : TNode} {rest : Heap}
    (hh : s.heap = node :: rest) (hord : Ordered s.heap) :
    ∀ m ∈ s.heap, node.expire_ms ≤ m.expire_ms := by
  intro m hm
  obtain ⟨i, hi, hat⟩ := mem_of_nodeAt hm
  have h0 : ev s.heap 0 = node.expire_ms := by rw [ev, hh, nodeAt_cons_zero]
  have hev : ev s.heap i = m.expire_ms := by rw [ev, hat]
  rw [← h0, ← hev]
  exact root_min hord i hi

theorem expireStep_spec (now : Nat) (s : TimerState) (node : TNode) (rest : Heap)
    (hh : s.heap = node :: rest) (hinv : Inv s) (hcm : s.count < int32Max) :
    Inv (expireStep s now node) ∧
    (keys (expireStep s now node).heap ++ [key node]).Perm
      ((if node.is_loop then
          [((s.count + 1 : Int), (now + node.timing_time_ms) % 2 ^ 64,
            node.timing_time_ms, node.is_loop)]
        else []) ++ keys s.heap) ∧
    s.count ≤ (expireStep s now node).count ∧
    (expireStep s now node).count ≤ s.count + 1 := by
  have hmem : node ∈ s.heap := by
    rw [hh]
    exact List.mem_cons_self _ _
  obtain ⟨d1, d2, d3, d4, d5, d6⟩ := removeNode_inv s node hinv hmem
  rw [expireStep]
  by_cases hlp : node.is_loop = true
  · simp only [hlp, if_true]
    obtain ⟨q1, q2, q3, q4⟩ := reAddTimer_inv (removeNode s node) now node d1 (by omega)
    rw [d5] at q2 q3
    rw [hlp] at q2
    refine ⟨q1, ?_, by omega, by omega⟩
    refine (q2.append_right [key node]).trans ?_
    rw [List.singleton_append]
    exact d3.cons _
  · rw [if_neg hlp, if_neg hlp, List.nil_append]
    exact ⟨d1, d3, by omega, by omega⟩

theorem filter_single_false {α : Type} {p : α → Bool} {a : α} (h : p a = false) :
    [a].filter p = [] := by
  simp [List.filter_singleton, h]

theorem expireStep_due (now : Nat) (s : TimerState) (node : TNode) (rest : Heap)
    (hh : s.heap = node :: rest) (hinv : Inv s) (hcm : s.count < int32Max)
    (hdue : node.expire_ms ≤ now)
    (hT : node.is_loop = true → 0 < node.timing_time_ms ∧ now + node.timing_time_ms < 2 ^ 64) :
    ((keys (expireStep s now node).heap).filter (dueKey now) ++ [key node]).Perm
      ((keys s.heap).filter (dueKey now)) := by
  obtain ⟨_, hperm, _, _⟩ := expireStep_spec now s node rest hh hinv hcm
  have hf := hperm.filter (dueKey now)
  rw [List.filter_append, List.filter_append] at hf
  have hknode : (dueKey now (key node)) = true := by
    simp [dueKey, key, hdue]
  have hone : [key node].filter (dueKey now) = [key node] := by
    simp [hknode]
  rw [hone] at hf
  refine hf.trans ?_
  by_cases hlp : node.is_loop = true
  · rw [if_pos hlp]
    obtain ⟨hT1, hT2⟩ := hT hlp
    have hnew : dueKey now ((s.count + 1 : Int), (now + node.timing_time_ms) % 2 ^ 64,
        node.timing_time_ms, node.is_loop) = false := by
      simp only [dueKey, decide_eq_false_iff_not]
      rw [Nat.mod_eq_of_lt hT2]
      omega
    rw [filter_single_false hnew, List.nil_append]
  · rw [if_neg hlp]
    simp

theorem expireLoop_cons_due {s : TimerState} {node : TNode} {rest : Heap} {now fuel : Nat}
    (hh : s.heap = node :: rest) (hdue : ¬ now < node.expire_ms) :
    expireLoop now (fuel + 1) s = ((expireLoop now fuel (expireStep s now node)).1,
      node :: (expireLoop now fuel (expireStep s now node)).2.1,
      (expireLoop now fuel (expireStep s now node)).2.2) := by
  rw [expireLoop, hh]
  simp [hdue]

theorem expireLoop_cons_undue {s : TimerState} {node : TNode} {rest : Heap} {now fuel : Nat}
    (hh : s.heap = node :: rest) (hdue : now < node.expire_ms) :
    expireLoop now (fuel + 1) s = (s, [], true) := by
  rw [expireLoop, hh]
  simp [hdue]

theorem expireLoop_nil {s : TimerState} {now fuel : Nat} (hh : s.heap = []) :
    expireLoop now (fuel + 1) s = (s, [], true) := by
  rw [expireLoop, hh]

theorem key_timing {k : Int × Nat × Nat × Bool} {n : TNode} (hk : key n = k) :
    n.timing_time_ms = k.2.2.1 := by
  rw [← hk, key]

theorem key_isLoop {k : Int × Nat × Nat × Bool} {n : TNode} (hk : key n = k) :
    n.is_loop = k.2.2.2 := by
  rw [← hk, key]

theorem expireLoop_main (now : Nat) : ∀ (fuel : Nat) (s : TimerState), Inv s →
    GoodLoops now s.heap →
    s.count + (fuel : Int) ≤ int32Max →
    ((keys s.heap).filter (dueKey now)).length < fuel →
    Inv (expireLoop now fuel s).1 ∧
    (expireLoop now fuel s).2.2 = true ∧
    (((expireLoop now fuel s).2.1).map key).Perm ((keys s.heap).filter (dueKey now)) ∧
    (∀ n ∈ (expireLoop now fuel s).1.heap, now < n.expire_ms) ∧
    s.count ≤ (expireLoop now fuel s).1.count := by
  intro fuel
  induction fuel with
  | zero => intro s _ _ _ hd; omega
  | succ fuel ih =>
    intro s hinv hgl hcnt hdl
    match hh : s.heap with
    | [] =>
      rw [expireLoop_nil hh]
      refine ⟨hinv, rfl, by simp [keys], ?_, le_refl _⟩
      intro n hn
      have hn2 : n ∈ s.heap := hn
      rw [hh] at hn2
      simp at hn2
    | node :: rest =>
      by_cases hdue : now < node.expire_ms
      · rw [expireLoop_cons_undue hh hdue]
        have hnone : List.filter (dueKey now) (keys (node :: rest)) = [] := by
          rw [List.filter_eq_nil_iff]
          intro k hk
          obtain ⟨m, hm, hkey⟩ := mem_of_key_mem hk
          have hroot := root_min_mem hh hinv.1 m (by rw [hh]; exact hm)
          simp only [dueKey, decide_eq_true_eq, ← hkey, key_expire]
          omega
        refine ⟨hinv, rfl, by rw [hnone]; simp, ?_, le_refl _⟩
        intro m hm
        have hm2 : m ∈ s.heap := hm
        exact lt_of_lt_of_le hdue (root_min_mem hh hinv.1 m hm2)
      · have hcm : s.count < int32Max := by
          have : (0 : Int) ≤ (fuel : Int) := by positivity
          omega
        have hdue2 : node.expire_ms ≤ now := by omega
        have hT : node.is_loop = true →
            0 < node.timing_time_ms ∧ now + node.timing_time_ms < 2 ^ 64 := by
          intro hlp
          exact hgl node (by rw [hh]; exact List.mem_cons_self _ _) hlp
        obtain ⟨e1, e2, e3, e4⟩ := expireStep_spec now s node rest hh hinv hcm
        have edue := expireStep_due now s node rest hh hinv hcm hdue2 hT
        have hglnew : GoodLoops now (expireStep s now node).heap := by
          intro m hm hlp
          have hkm : key m ∈ keys (expireStep s now node).heap ++ [key node] :=
            List.mem_append_left _ (key_mem_of_mem hm)
          rcases List.mem_append.mp ((e2.mem_iff).mp hkm) with hnew | hold
          · by_cases hlpn : node.is_loop = true
            · rw [if_pos hlpn] at hnew
              have hkeq := List.mem_singleton.mp hnew
              have ht := key_timing hkeq
              simp only at ht
              have := hT hlpn
              omega
            · rw [if_neg hlpn] at hnew
              simp at hnew
          · obtain ⟨m0, hm0, hk0⟩ := mem_of_key_mem hold
            have ht := key_timing hk0
            have hl := key_isLoop hk0
            simp only [key] at ht hl
            have := hgl m0 hm0 (by rw [hl, hlp])
            omega
        have hlen_due : ((keys (expireStep s now node).heap).filter (dueKey now)).length + 1
            = ((keys s.heap).filter (dueKey now)).length := by
          have := edue.length_eq
          simpa using this
        have hcnt2 : (expireStep s now node).count + (fuel : Int) ≤ int32Max := by
          push_cast at hcnt
          omega
        obtain ⟨i1, i2, i3, i4, i5⟩ := ih (expireStep s now node) e1 hglnew hcnt2 (by omega)
        rw [hh] at edue
        rw [expireLoop_cons_due hh hdue]
        refine ⟨i1, i2, ?_, i4,
          by show s.count ≤ (expireLoop now fuel (expireStep s now node)).1.count; omega⟩
        show (key node :: ((expireLoop now fuel (expireStep s now node)).2.1).map key).Perm _
        refine (i3.cons (key node)).trans ?_
        exact (List.perm_append_singleton _ _).symm.trans edue

theorem expireTimer_main (fuel : Nat) (s : TimerState) (now : Nat) (hinv : Inv s)
    (hgl : GoodLoops now s.heap) (hcnt : s.count + (fuel : Int) ≤ int32Max)
    (hdl : ((keys s.heap).filter (dueKey now)).length < fuel) :
    Inv (expireTimer fuel s now).1 ∧ (expireTimer fuel s now).2.2 = true ∧
    ((expireTimer fuel s now).2.1.map key).Perm ((keys s.heap).filter (dueKey now)) ∧
    (∀ n ∈ (expireTimer fuel s now).1.heap, now < n.expire_ms) ∧
    s.count ≤ (expireTimer fuel s now).1.count := by
  rw [expireTimer]
  split
  · next he =>
    have hemp : s.heap = [] := List.isEmpty_iff.mp he
    refine ⟨hinv, rfl, by rw [hemp]; simp [keys], ?_, le_refl _⟩
    intro n hn
    have hn2 : n ∈ s.heap := hn
    rw [hemp] at hn2
    simp at hn2
  · exact expireLoop_main now fuel s hinv hgl hcnt hdl

theorem delTimer_inv (s : TimerState) (i : Int) (hinv : Inv s) : Inv (delTimer s i).1 := by
  by_cases hm : i ∈ s.tmap
  · obtain ⟨node, hn1, _, he⟩ := delTimer_found s i hinv hm
    rw [he]
    exact (removeNode_inv s node hinv hn1).1
  · rw [delTimer_not_found s i hm]
    exact hinv

theorem expireLoop_avoid (now : Nat) : ∀ (fuel : Nat) (s : TimerState), Inv s →
    s.count + (fuel : Int) ≤ int32Max →
    Inv (expireLoop now fuel s).1 ∧
    s.count ≤ (expireLoop now fuel s).1.count ∧
    (∀ f ∈ (expireLoop now fuel s).2.1, f.id ∈ heapIds s.heap ∨ s.count < f.id) ∧
    (∀ m ∈ (expireLoop now fuel s).1.heap, m.id ∈ heapIds s.heap ∨ s.count < m.id) := by
  intro fuel
  induction fuel with
  | zero =>
    intro s hinv _
    exact ⟨hinv, le_refl _, by simp [expireLoop], fun m hm =>
      Or.inl (List.mem_map.mpr ⟨m, hm, rfl⟩)⟩
  | succ fuel ih =>
    intro s hinv hcnt
    match hh : s.heap with
    | [] =>
      rw [expireLoop_nil hh]
      refine ⟨hinv, le_refl _, by simp, ?_⟩
      intro m hm
      have hm2 : m ∈ s.heap := hm
      rw [hh] at hm2
      simp at hm2
    | node :: rest =>
      by_cases hdue : now < node.expire_ms
      · rw [expireLoop_cons_undue hh hdue]
        refine ⟨hinv, le_refl _, by simp, ?_⟩
        intro m hm
        have hm2 : m ∈ s.heap := hm
        rw [← hh]
        exact Or.inl (List.mem_map.mpr ⟨m, hm2, rfl⟩)
      · have hcm : s.count < int32Max := by
          have : (0 : Int) ≤ (fuel : Int) := by positivity
          push_cast at hcnt
          omega
        obtain ⟨e1, e2, e3, e4⟩ := expireStep_spec now s node rest hh hinv hcm
        have hsub : ∀ m ∈ (expireStep s now node).heap,
            m.id ∈ heapIds s.heap ∨ m.id = s.count + 1 := by
          intro m hm
          have hkm : key m ∈ keys (expireStep s now node).heap ++ [key node] :=
            List.mem_append_left _ (key_mem_of_mem hm)
          rcases List.mem_append.mp ((e2.mem_iff).mp hkm) with hnew | hold
          · by_cases hlpn : node.is_loop = true
            · rw [if_pos hlpn] at hnew
              have hkeq := List.mem_singleton.mp hnew
              refine Or.inr ?_
              have : m.id = (key m).1 := rfl
              rw [this, hkeq]
            · rw [if_neg hlpn] at hnew
              simp at hnew
          · obtain ⟨m0, hm0, hk0⟩ := mem_of_key_mem hold
            refine Or.inl ?_
            have hid : m0.id = m.id := by
              have := congrArg (fun k => k.1) hk0
              simpa [key] using this
            exact List.mem_map.mpr ⟨m0, hm0, hid⟩
        have hidsub : ∀ j, j ∈ heapIds (expireStep s now node).heap →
            j ∈ heapIds s.heap ∨ s.count < j := by
          intro j hj
          obtain ⟨m, hm, he⟩ := List.mem_map.mp hj
          rcases hsub m hm with ho | hn
          · exact Or.inl (he ▸ ho)
          · right
            omega
        have hcnt2 : (expireStep s now node).count + (fuel : Int) ≤ int32Max := by
          push_cast at hcnt
          omega
        obtain ⟨i1, i2, i3, i4⟩ := ih (expireStep s now node) e1 hcnt2
        rw [expireLoop_cons_due hh hdue]
        have hcle : s.count ≤ (expireLoop now fuel (expireStep s now node)).1.count := by
          omega
        refine ⟨i1, hcle, ?_, ?_⟩
        · intro f hf
          rw [← hh]
          have hf2 : f ∈ node :: (expireLoop now fuel (expireStep s now node)).2.1 := hf
          rcases List.mem_cons.mp hf2 with rfl | hf3
          · refine Or.inl (List.mem_map.mpr ⟨f, ?_, rfl⟩)
            rw [hh]
            exact List.mem_cons_self _ _
          · rcases i3 f hf3 with hin | hgt
            · rcases hidsub f.id hin with ho | hn
              · exact Or.inl ho
              · exact Or.inr hn
            · exact Or.inr (by omega)
        · intro m hm
          rw [← hh]
          have hm2 : m ∈ (expireLoop now fuel (expireStep s now node)).1.heap := hm
          rcases i4 m hm2 with hin | hgt
          · rcases hidsub m.id hin with ho | hn
            · exact Or.inl ho
            · exact Or.inr hn
          · exact Or.inr (by omega)

theorem expireStep_oneshot_eq {s : TimerState} {now : Nat} {node : TNode}
    (hlp : node.is_loop = false) : expireStep s now node = removeNode s node := by
  rw [expireStep, if_neg (by rw [hlp]; exact Bool.false_ne_true)]

theorem expire_mem_map {h : Heap} {n : TNode} (hm : n ∈ h) :
    n.expire_ms ∈ h.map (fun m => m.expire_ms) := List.mem_map.mpr ⟨n, hm, rfl⟩

theorem expireLoop_oneshot (now : Nat) : ∀ (fuel : Nat) (s : TimerState), Inv s →
    (∀ n ∈ s.heap, n.is_loop = false) →
    s.heap.length < fuel →
    (expireLoop now fuel s).2.2 = true ∧
    Inv (expireLoop now fuel s).1 ∧
    (∀ n ∈ (expireLoop now fuel s).1.heap, n.is_loop = false) ∧
    (∀ n ∈ (expireLoop now fuel s).1.heap, now < n.expire_ms) ∧
    (∀ f ∈ (expireLoop now fuel s).2.1, f.expire_ms ≤ now) ∧
    (∀ f ∈ (expireLoop now fuel s).2.1,
      f.expire_ms ∈ s.heap.map (fun m => m.expire_ms)) ∧
    List.Sorted (· ≤ ·) ((expireLoop now fuel s).2.1.map (fun m => m.expire_ms)) ∧
    (keys (expireLoop now fuel s).1.heap ++
      (expireLoop now fuel s).2.1.map key).Perm (keys s.heap) := by
  intro fuel
  induction fuel with
  | zero => intro s _ _ hlen; omega
  | succ fuel ih =>
    intro s hinv hone hlen
    match hh : s.heap with
    | [] =>
      rw [expireLoop_nil hh]
      refine ⟨rfl, hinv, ?_, ?_, by simp, by simp, by simp, by simp [hh]⟩
      · intro n hn
        exact hone n hn
      · intro n hn
        have hn2 : n ∈ s.heap := hn
        rw [hh] at hn2
        simp at hn2
    | node :: rest =>
      by_cases hdue : now < node.expire_ms
      · rw [expireLoop_cons_undue hh hdue]
        refine ⟨rfl, hinv, fun n hn => hone n hn, ?_, by simp, by simp, by simp,
          by simp [hh]⟩
        intro m hm
        have hm2 : m ∈ s.heap := hm
        exact lt_of_lt_of_le hdue (root_min_mem hh hinv.1 m hm2)
      · have hmem : node ∈ s.heap := by
          rw [hh]
          exact List.mem_cons_self _ _
        have hlp : node.is_loop = false := hone node hmem
        have hse : expireStep s now node = removeNode s node := expireStep_oneshot_eq hlp
        obtain ⟨d1, d2, d3, d4, d5, d6⟩ := removeNode_inv s node hinv hmem
        have hone2 : ∀ n ∈ (removeNode s node).heap, n.is_loop = false := by
          intro m hm
          have hkm : key m ∈ keys (removeNode s node).heap ++ [key node] :=
            List.mem_append_left _ (key_mem_of_mem hm)
          obtain ⟨m0, hm0, hk0⟩ := mem_of_key_mem ((d3.mem_iff).mp hkm)
          have hl : m0.is_loop = m.is_loop := by
            have := congrArg (fun k => k.2.2.2) hk0
            simpa [key] using this
          rw [← hl]
          exact hone m0 hm0
        have hexpsub : ∀ e, e ∈ (removeNode s node).heap.map (fun m => m.expire_ms) →
            e ∈ s.heap.map (fun m => m.expire_ms) := by
          intro e he
          obtain ⟨m, hm, hme⟩ := List.mem_map.mp he
          have hkm : key m ∈ keys (removeNode s node).heap ++ [key node] :=
            List.mem_append_left _ (key_mem_of_mem hm)
          obtain ⟨m0, hm0, hk0⟩ := mem_of_key_mem ((d3.mem_iff).mp hkm)
          have hx : m0.expire_ms = m.expire_ms := by
            have := congrArg (fun k => k.2.1) hk0
            simpa [key] using this
          exact List.mem_map.mpr ⟨m0, hm0, by rw [hx, hme]⟩
        have hlen2 : (removeNode s node).heap.length < fuel := by
          rw [hh] at d2 hlen
          simp at d2 hlen
          omega
        obtain ⟨i1, i2, i3, i4, i5, i6, i7, i8⟩ :=
          ih (removeNode s node) d1 hone2 hlen2
        rw [expireLoop_cons_due hh hdue, hse]
        have hroot := root_min_mem hh hinv.1
        refine ⟨i1, i2, i3, i4, ?_, ?_, ?_, ?_⟩
        · intro f hf
          rcases List.mem_cons.mp hf with rfl | hf2
          · omega
          · exact i5 f hf2
        · intro f hf
          rw [← hh]
          rcases List.mem_cons.mp hf with rfl | hf2
          · exact expire_mem_map hmem
          · exact hexpsub _ (i6 f hf2)
        · show List.Sorted (· ≤ ·) (node.expire_ms ::
            ((expireLoop now fuel (removeNode s node)).2.1.map (fun m => m.expire_ms)))
          refine List.sorted_cons.mpr ⟨?_, i7⟩
          intro b hb
          have hb2 := hexpsub b (by
            obtain ⟨f, hf, hfe⟩ := List.mem_map.mp hb
            exact hfe ▸ i6 f hf)
          obtain ⟨m0, hm0, hme⟩ := List.mem_map.mp hb2
          rw [← hme]
          exact hroot m0 hm0
        · rw [← hh]
          show (keys (expireLoop now fuel (removeNode s node)).1.heap ++
            (key node :: (expireLoop now fuel (removeNode s node)).2.1.map key)).Perm
            (keys s.heap)
          refine (List.perm_middle).trans ?_
          refine ((i8).cons (key node)).trans ?_
          exact (List.perm_append_singleton _ _).symm.trans d3

theorem expireTimer_oneshot (fuel : Nat) (s : TimerState) (now : Nat) (hinv : Inv s)
    (hone : ∀ n ∈ s.heap, n.is_loop = false) (hlen : s.heap.length < fuel) :
    (expireTimer fuel s now).2.2 = true ∧
    Inv (expireTimer fuel s now).1 ∧
    (∀ n ∈ (expireTimer fuel s now).1.heap, n.is_loop = false) ∧
    (∀ n ∈ (expireTimer fuel s now).1.heap, now < n.expire_ms) ∧
    (∀ f ∈ (expireTimer fuel s now).2.1, f.expire_ms ≤ now) ∧
    (∀ f ∈ (expireTimer fuel s now).2.1,
      f.expire_ms ∈ s.heap.map (fun m => m.expire_ms)) ∧
    List.Sorted (· ≤ ·) ((expireTimer fuel s now).2.1.map (fun m => m.expire_ms)) ∧
    (keys (expireTimer fuel s now).1.heap ++
      (expireTimer fuel s now).2.1.map key).Perm (keys s.heap) := by
  rw [expireTimer]
  split
  · next he =>
    have hemp : s.heap = [] := List.isEmpty_iff.mp he
    refine ⟨rfl, hinv, fun n hn => hone n hn, ?_, by simp, by simp, by simp, by simp⟩
    intro n hn
    have hn2 : n ∈ s.heap := hn
    rw [hemp] at hn2
    simp at hn2
  · exact expireLoop_oneshot now fuel s hinv hone hlen

theorem sweepSeq_cons (s : TimerState) (t : Nat) (ts : List Nat) :
    sweepSeq s (t :: ts) =
      ((sweepSeq (expireTimer (s.heap.length + 1) s t).1 ts).1,
        (expireTimer (s.heap.length + 1) s t).2.1 ++
          (sweepSeq (expireTimer (s.heap.length + 1) s t).1 ts).2) := rfl

theorem sweepSeq_spec : ∀ (ts : List Nat) (s : TimerState), Inv s →
    (∀ n ∈ s.heap, n.is_loop = false) →
    Inv (sweepSeq s ts).1 ∧
    (∀ n ∈ (sweepSeq s ts).1.heap, n.is_loop = false) ∧
    (∀ f ∈ (sweepSeq s ts).2, f.expire_ms ∈ s.heap.map (fun m => m.expire_ms)) ∧
    List.Sorted (· ≤ ·) ((sweepSeq s ts).2.map (fun m => m.expire_ms)) := by
  intro ts
  induction ts with
  | nil =>
    intro s hinv hone
    exact ⟨hinv, hone, by simp [sweepSeq], by simp [sweepSeq]⟩
  | cons t ts ih =>
    intro s hinv hone
    obtain ⟨o1, o2, o3, o4, o5, o6, o7, o8⟩ :=
      expireTimer_oneshot (s.heap.length + 1) s t hinv hone (by omega)
    obtain ⟨j1, j2, j3, j4⟩ := ih (expireTimer (s.heap.length + 1) s t).1 o2 o3
    have hsub : ∀ e, e ∈ (expireTimer (s.heap.length + 1) s t).1.heap.map
        (fun m => m.expire_ms) → e ∈ s.heap.map (fun m => m.expire_ms) := by
      intro e he
      obtain ⟨m, hm, hme⟩ := List.mem_map.mp he
      obtain ⟨m0, hm0, hk0⟩ := mem_of_key_mem
        ((o8.mem_iff).mp (List.mem_append_left _ (key_mem_of_mem hm)))
      have hx : m0.expire_ms = m.expire_ms := by
        have := congrArg (fun k => k.2.1) hk0
        simpa [key] using this
      exact List.mem_map.mpr ⟨m0, hm0, by rw [hx, hme]⟩
    rw [sweepSeq_cons]
    refine ⟨j1, j2, ?_, ?_⟩
    · intro f hf
      rcases List.mem_append.mp hf with h1 | h2
      · exact o6 f h1
      · exact hsub _ (j3 f h2)
    · rw [List.map_append]
      refine (List.pairwise_append).mpr ⟨o7, j4, ?_⟩
      intro a ha b hb
      obtain ⟨fa, hfa, hae⟩ := List.mem_map.mp ha
      obtain ⟨fb, hfb, hbe⟩ := List.mem_map.mp hb
      have hat : a ≤ t := hae ▸ o5 fa hfa
      have hbmem := j3 fb hfb
      obtain ⟨m0, hm0, hme⟩ := List.mem_map.mp hbmem
      have hbt : t < fb.expire_ms := by
        rw [← hme]
        exact o4 m0 hm0
      omega

/-! ### Odds and ends for the claims -/

theorem mem_mapInsert {a k : Int} {l : List Int} :
    a ∈ mapInsert k l ↔ a = k ∨ a ∈ l := by
  induction l with
  | nil => simp [mapInsert]
  | cons x xs ih =>
    rw [mapInsert]
    split
    · simp [List.mem_cons]
    · split
      · next heq =>
        subst heq
        simp [List.mem_cons]
      · simp only [List.mem_cons, ih]
        tauto

theorem mem_mapErase {a k : Int} {l : List Int} :
    a ∈ mapErase k l ↔ a ∈ l ∧ a ≠ k := by
  simp [mapErase, List.mem_filter]

theorem claimInv_of_inv {s : TimerState} (hinv : Inv s) : ClaimInv s := by
  obtain ⟨hord, hik, _, hpm, _, _⟩ := hinv
  refine ⟨?_, hik, fun k => hpm.mem_iff⟩
  intro i c hc hcc
  have h1 : 1 ≤ c := by omega
  have := hord c hc h1
  rwa [show (c - 1) / 2 = i by omega] at this

theorem delTimer_count (s : TimerState) (i : Int) : (delTimer s i).1.count = s.count := by
  rw [delTimer]
  split
  · cases hf : s.heap.find? (fun n => n.id == i) with
    | none => rfl
    | some node => rfl
  · rfl

theorem uint64OfInt_small {m : Int} (h0 : 0 ≤ m) (h1 : m ≤ int32Max) :
    uint64OfInt m = m.toNat := by
  rw [uint64OfInt, Int.emod_eq_of_lt h0 (by simp [int32Max] at h1; omega)]

theorem loopAddTimer_eq_lt (ls : LoopState) (now timing : Nat) (lp : Bool)
    (hc : timing < uint64OfInt ls.min_timing_time_ms) :
    loopAddTimer ls now timing lp =
      ({ base := (addTimer ls.base now timing lp).1,
         min_timing_time_ms := wrap32 (timing : Int) },
       (addTimer ls.base now timing lp).2) := by
  rw [loopAddTimer]
  simp [hc]

theorem loopAddTimer_eq_ge (ls : LoopState) (now timing : Nat) (lp : Bool)
    (hc : ¬ timing < uint64OfInt ls.min_timing_time_ms) :
    loopAddTimer ls now timing lp =
      ({ base := (addTimer ls.base now timing lp).1,
         min_timing_time_ms := ls.min_timing_time_ms },
       (addTimer ls.base now timing lp).2) := by
  rw [loopAddTimer]
  simp [hc]

theorem loopAddTimer_min (ls : LoopState) (now timing : Nat) (lp : Bool)
    (h0 : 0 ≤ ls.min_timing_time_ms) (h1 : ls.min_timing_time_ms ≤ int32Max) :
    (loopAddTimer ls now timing lp).1.min_timing_time_ms ≤ ls.min_timing_time_ms ∧
    ((timing : Int) < ls.min_timing_time_ms →
      (loopAddTimer ls now timing lp).1.min_timing_time_ms = (timing : Int)) ∧
    (ls.min_timing_time_ms ≤ (timing : Int) →
      (loopAddTimer ls now timing lp).1.min_timing_time_ms = ls.min_timing_time_ms) ∧
    0 ≤ (loopAddTimer ls now timing lp).1.min_timing_time_ms := by
  have hu : uint64OfInt ls.min_timing_time_ms = ls.min_timing_time_ms.toNat :=
    uint64OfInt_small h0 h1
  by_cases hc : timing < uint64OfInt ls.min_timing_time_ms
  · have htl : (timing : Int) < ls.min_timing_time_ms := by
      rw [hu] at hc
      omega
    have hw : wrap32 (timing : Int) = (timing : Int) := by
      refine wrap32_small (by simp only [int32Min]; omega) ?_
      simp only [int32Max] at h1 ⊢
      omega
    rw [loopAddTimer_eq_lt ls now timing lp hc]
    refine ⟨?_, ?_, ?_, ?_⟩
    · show wrap32 (timing : Int) ≤ ls.min_timing_time_ms
      rw [hw]
      omega
    · intro _
      exact hw
    · intro hge
      omega
    · show (0 : Int) ≤ wrap32 (timing : Int)
      rw [hw]
      positivity
  · have htl : ls.min_timing_time_ms ≤ (timing : Int) := by
      rw [hu] at hc
      omega
    rw [loopAddTimer_eq_ge ls now timing lp hc]
    exact ⟨le_refl _, fun hx => by omega, fun _ => rfl, h0⟩

/-! ### Claim C1: identifier across a repeating firing -/

/-- Claim C1 as stated is false on the code: after the single repeating
timer in exS1 fires once during a sweep, the heap node carries the fresh
identifier 2, the lookup table is [2] rather than the original [1], the
original identifier 1 is gone, and Cancel(1) now fails, although the sweep
completed normally. -/
theorem C1_counterexample :
    (expireTimer 2 exS1 5).2.2 = true ∧
    heapIds (expireTimer 2 exS1 5).1.heap = [2] ∧
    (expireTimer 2 exS1 5).1.tmap = [2] ∧
    (1 : Int) ∉ (expireTimer 2 exS1 5).1.tmap ∧
    (delTimer (expireTimer 2 exS1 5).1 1).2 = false := by decide

/-- Claim C1 amended: when a repeating root node fires, _addTimer(TNode*)
mints a fresh identifier (the incremented counter), the lookup table drops
the old identifier and gains the fresh one, and the reinserted node carries
the fresh identifier with the recomputed expiration; the old identifier is
strictly smaller than the fresh one. -/
theorem C1_repeat_fresh_id (s : TimerState) (now : Nat) (node : TNode) (rest : Heap)
    (hh : s.heap = node :: rest) (hinv : Inv s) (hcm : s.count < int32Max)
    (hlp : node.is_loop = true) :
    node.id ∉ (expireStep s now node).tmap ∧
    (s.count + 1) ∈ (expireStep s now node).tmap ∧
    ((s.count + 1 : Int), (now + node.timing_time_ms) % 2 ^ 64, node.timing_time_ms, true)
      ∈ keys (expireStep s now node).heap ∧
    node.id < s.count + 1 := by
  have hmem : node ∈ s.heap := by
    rw [hh]
    exact List.mem_cons_self _ _
  have hles : node.id ≤ s.count := hinv.2.2.2.2.1 node hmem
  obtain ⟨d1, d2, d3, d4, d5, d6⟩ := removeNode_inv s node hinv hmem
  have hse : expireStep s now node = reAddTimer (removeNode s node) now node := by
    rw [expireStep, if_pos hlp]
  obtain ⟨q1, q2, q3, q4⟩ := reAddTimer_inv (removeNode s node) now node d1 (by omega)
  rw [d5] at q2 q4
  rw [hse]
  refine ⟨?_, ?_, ?_, by omega⟩
  · rw [q4, d4]
    intro hx
    rcases mem_mapInsert.mp hx with he | hm
    · omega
    · exact (mem_mapErase.mp hm).2 rfl
  · rw [q4]
    exact mem_mapInsert.mpr (Or.inl rfl)
  · rw [hlp] at q2
    exact (q2.mem_iff).mpr (List.mem_cons_self _ _)

/-- Witness for C1_repeat_fresh_id at the concrete state exS1. -/
theorem C1_repeat_fresh_id_witness :
    exNode.id ∉ (expireStep exS1 5 exNode).tmap ∧
    (exS1.count + 1) ∈ (expireStep exS1 5 exNode).tmap ∧
    ((exS1.count + 1 : Int), (5 + exNode.timing_time_ms) % 2 ^ 64,
      exNode.timing_time_ms, true) ∈ keys (expireStep exS1 5 exNode).heap ∧
    exNode.id < exS1.count + 1 :=
  C1_repeat_fresh_id exS1 5 exNode [] rfl (by decide) (by decide) rfl

/-! ### Claim C2: the three-part state invariant -/

/-- Claim C2: after a Schedule (any _addTimer), a Cancel (DelTimer) or a
Sweep (ExpireTimer) on a well-formed engine whose id counter has not
reached INT_MAX, the state invariant holds: parents not above children
within bounds, recorded positions equal to true positions, and the lookup
table holding exactly the identifiers of the heap nodes. -/
theorem C2_state_invariant :
    (∀ (s : TimerState) (now timing : Nat) (lp : Bool), Inv s → s.count < int32Max →
      ClaimInv (addTimer s now timing lp).1) ∧
    (∀ (s : TimerState) (i : Int), Inv s → ClaimInv (delTimer s i).1) ∧
    (∀ (s : TimerState) (now fuel : Nat), Inv s → s.count + (fuel : Int) ≤ int32Max →
      ClaimInv (expireTimer fuel s now).1) := by
  refine ⟨?_, ?_, ?_⟩
  · intro s now timing lp hinv hcm
    exact claimInv_of_inv (addTimer_inv s now timing lp hinv hcm).1
  · intro s i hinv
    exact claimInv_of_inv (delTimer_inv s i hinv)
  · intro s now fuel hinv hcnt
    refine claimInv_of_inv ?_
    rw [expireTimer]
    split
    · exact hinv
    · exact (expireLoop_avoid now fuel s hinv hcnt).1

/-- Witness for C2_state_invariant on concrete operations. -/
theorem C2_state_invariant_witness :
    ClaimInv (addTimer exS1 0 7 false).1 ∧
    ClaimInv (delTimer exS1 1).1 ∧
    ClaimInv (expireTimer 2 exS1 5).1 :=
  ⟨C2_state_invariant.1 exS1 0 7 false (by decide) (by decide),
   C2_state_invariant.2.1 exS1 1 (by decide),
   C2_state_invariant.2.2 exS1 5 2 (by decide) (by decide)⟩

/-! ### Claim C3: firing order of one-shot timers -/

/-- Claim C3: for a static set of one-shot timers with pairwise distinct
deadlines, a sequence of Sweep calls at non-decreasing times invokes the
callbacks in non-decreasing order of expire_ms. -/
theorem C3_fire_order (s : TimerState) (ts : List Nat) (hinv : Inv s)
    (hone : ∀ n ∈ s.heap, n.is_loop = false)
    (_hdist : (s.heap.map (fun m => m.expire_ms)).Nodup)
    (_hmono : List.Sorted (· ≤ ·) ts) :
    List.Sorted (· ≤ ·) ((sweepSeq s ts).2.map (fun m => m.expire_ms)) :=
  (sweepSeq_spec ts s hinv hone).2.2.2

/-- Witness for C3_fire_order: scenario A, sweeps at 10, 30, 50. -/
theorem C3_fire_order_witness :
    List.Sorted (· ≤ ·) ((sweepSeq sA [10, 30, 50]).2.map (fun m => m.expire_ms)) :=
  C3_fire_order sA [10, 30, 50] (by decide) (by decide) (by decide) (by decide)

/-! ### Claim C4: a single sweep fires exactly the due nodes -/

/-- Claim C4: one ExpireTimer call invokes the callback of each node that
is due (expire_ms at most now) exactly once — the trace of invocations is a
permutation of the due nodes — invokes no undue node, runs to completion,
and returns immediately leaving the state unchanged when the heap is empty
or the root is in the future. -/
theorem C4_sweep_exact (s : TimerState) (now fuel : Nat) (hinv : Inv s)
    (hgl : GoodLoops now s.heap) (hcnt : s.count + (fuel : Int) ≤ int32Max)
    (hfuel : ((keys s.heap).filter (dueKey now)).length < fuel) :
    (((expireTimer fuel s now).2.1).map key).Perm ((keys s.heap).filter (dueKey now)) ∧
    (∀ f ∈ (expireTimer fuel s now).2.1, f.expire_ms ≤ now) ∧
    (expireTimer fuel s now).2.2 = true ∧
    (s.heap = [] → expireTimer fuel s now = (s, [], true)) ∧
    (∀ node rest, s.heap = node :: rest → now < node.expire_ms →
      expireTimer fuel s now = (s, [], true)) := by
  obtain ⟨m1, m2, m3, m4, m5⟩ := expireTimer_main fuel s now hinv hgl hcnt hfuel
  refine ⟨m3, ?_, m2, ?_, ?_⟩
  · intro f hf
    have hk : key f ∈ (keys s.heap).filter (dueKey now) :=
      (m3.mem_iff).mp (List.mem_map.mpr ⟨f, hf, rfl⟩)
    have := (List.mem_filter.mp hk).2
    simpa [dueKey, key] using this
  · intro hemp
    rw [expireTimer, if_pos (by rw [hemp]; rfl)]
  · intro node rest hh hundue
    cases fuel with
    | zero => omega
    | succ m =>
      rw [expireTimer, if_neg (by rw [hh]; simp), expireLoop_cons_undue hh hundue]

/-- Witness for C4_sweep_exact: scenario A state swept at time 10. -/
theorem C4_sweep_exact_witness :
    (((expireTimer 4 sA 10).2.1).map key).Perm ((keys sA.heap).filter (dueKey 10)) ∧
    (∀ f ∈ (expireTimer 4 sA 10).2.1, f.expire_ms ≤ 10) ∧
    (expireTimer 4 sA 10).2.2 = true ∧
    (sA.heap = [] → expireTimer 4 sA 10 = (sA, [], true)) ∧
    (∀ node rest, sA.heap = node :: rest → 10 < node.expire_ms →
      expireTimer 4 sA 10 = (sA, [], true)) :=
  C4_sweep_exact sA 10 4 (by decide) (by decide) (by decide) (by decide)

/-! ### Claim C5: recomputed expiration of a repeating timer -/

/-- Claim C5: a repeating root that fires during a sweep whose captured
time is now is reinserted with expire_ms equal to now plus its period
(absent 64-bit wrap), carrying the same period and repeat flag. -/
theorem C5_recompute (s : TimerState) (now : Nat) (node : TNode) (rest : Heap)
    (hh : s.heap = node :: rest) (hinv : Inv s) (hcm : s.count < int32Max)
    (hlp : node.is_loop = true) (hnw : now + node.timing_time_ms < 2 ^ 64) :
    ∃ m ∈ (expireStep s now node).heap,
      m.id = s.count + 1 ∧ m.timing_time_ms = node.timing_time_ms ∧
      m.is_loop = true ∧ m.expire_ms = now + node.timing_time_ms := by
  have hles : node.id ≤ s.count := hinv.2.2.2.2.1 node (by
    rw [hh]
    exact List.mem_cons_self _ _)
  obtain ⟨e1, e2, e3, e4⟩ := expireStep_spec now s node rest hh hinv hcm
  rw [if_pos hlp] at e2
  have hmemk : ((s.count + 1 : Int), (now + node.timing_time_ms) % 2 ^ 64,
      node.timing_time_ms, node.is_loop) ∈ keys (expireStep s now node).heap ++ [key node] :=
    (e2.mem_iff).mpr (List.mem_append_left _ (List.mem_singleton_self _))
  rcases List.mem_append.mp hmemk with hin | hone
  · obtain ⟨m, hm, hk⟩ := mem_of_key_mem hin
    refine ⟨m, hm, ?_, ?_, ?_, ?_⟩
    · have := congrArg (fun k => k.1) hk
      simpa [key] using this
    · have := congrArg (fun k => k.2.2.1) hk
      simpa [key] using this
    · have := congrArg (fun k => k.2.2.2) hk
      simp [key] at this
      rw [this, hlp]
    · have := congrArg (fun k => k.2.1) hk
      simp [key] at this
      omega
  · exfalso
    have hks := List.mem_singleton.mp hone
    have := congrArg (fun k => k.1) hks
    simp [key] at this
    omega

/-- Witness for C5_recompute at exS1 swept at time 5. -/
theorem C5_recompute_witness :
    ∃ m ∈ (expireStep exS1 5 exNode).heap,
      m.id = exS1.count + 1 ∧ m.timing_time_ms = exNode.timing_time_ms ∧
      m.is_loop = true ∧ m.expire_ms = 5 + exNode.timing_time_ms :=
  C5_recompute exS1 5 exNode [] rfl (by decide) (by decide) rfl (by decide)

/-! ### Claim C6: cancellation of a live identifier -/

/-- Claim C6: cancelling a live identifier returns true, removes exactly
that node from the heap and the identifier from the lookup table — the
remaining keys are the original keys minus the cancelled node — and no
subsequent sweep ever records a callback invocation for that identifier. -/
theorem C6_cancel_live (s : TimerState) (i : Int) (hinv : Inv s) (hmem : i ∈ s.tmap) :
    (delTimer s i).2 = true ∧
    i ∉ (delTimer s i).1.tmap ∧
    i ∉ heapIds (delTimer s i).1.heap ∧
    (∃ node ∈ s.heap, node.id = i ∧
      (keys (delTimer s i).1.heap ++ [key node]).Perm (keys s.heap)) ∧
    (∀ (now fuel : Nat), (delTimer s i).1.count + (fuel : Int) ≤ int32Max →
      ∀ f ∈ (expireTimer fuel (delTimer s i).1 now).2.1, f.id ≠ i) := by
  obtain ⟨node, hn1, hn2, he⟩ := delTimer_found s i hinv hmem
  obtain ⟨d1, d2, d3, d4, d5, d6⟩ := removeNode_inv s node hinv hn1
  have hs1 : (delTimer s i).1 = removeNode s node := by rw [he]
  have hle := hinv.2.2.2.2.1 node hn1
  rw [hs1, he]
  refine ⟨rfl, ?_, ?_, ⟨node, hn1, hn2, d3⟩, ?_⟩
  · rw [d4]
    intro hx
    exact (mem_mapErase.mp hx).2 hn2.symm
  · rw [← hn2]
    exact d6
  · intro now fuel hcnt f hf heq
    rw [expireTimer] at hf
    by_cases hemp : (removeNode s node).heap.isEmpty = true
    · rw [if_pos hemp] at hf
      simp at hf
    · rw [if_neg hemp] at hf
      obtain ⟨v1, v2, v3, v4⟩ := expireLoop_avoid now fuel (removeNode s node) d1 hcnt
      rcases v3 f hf with hin | hgt
      · rw [heq, ← hn2] at hin
        exact d6 hin
      · omega

/-- Witness for C6_cancel_live: cancelling id 2 in the scenario-A state. -/
theorem C6_cancel_live_witness :
    (delTimer sA 2).2 = true ∧
    (2 : Int) ∉ (delTimer sA 2).1.tmap ∧
    (2 : Int) ∉ heapIds (delTimer sA 2).1.heap ∧
    (∃ node ∈ sA.heap, node.id = 2 ∧
      (keys (delTimer sA 2).1.heap ++ [key node]).Perm (keys sA.heap)) ∧
    (∀ (now fuel : Nat), (delTimer sA 2).1.count + (fuel : Int) ≤ int32Max →
      ∀ f ∈ (expireTimer fuel (delTimer sA 2).1 now).2.1, f.id ≠ 2) :=
  C6_cancel_live sA 2 (by decide) (by decide)

/-! ### Claim C7: cancellation of an absent identifier -/

/-- Claim C7: cancelling an identifier absent from the lookup table
returns false and changes nothing, and cancelling the same identifier
twice returns false the second time. -/
theorem C7_cancel_missing (s : TimerState) (i : Int) :
    (i ∉ s.tmap → delTimer s i = (s, false)) ∧
    (Inv s → i ∈ s.tmap → (delTimer (delTimer s i).1 i).2 = false) := by
  refine ⟨fun hm => delTimer_not_found s i hm, ?_⟩
  intro hinv hmem
  obtain ⟨node, hn1, hn2, he⟩ := delTimer_found s i hinv hmem
  obtain ⟨d1, d2, d3, d4, d5, d6⟩ := removeNode_inv s node hinv hn1
  have hni : i ∉ (delTimer s i).1.tmap := by
    rw [he]
    show i ∉ (removeNode s node).tmap
    rw [d4]
    intro hx
    exact (mem_mapErase.mp hx).2 hn2.symm
  rw [delTimer_not_found _ i hni]

/-- Witness for C7_cancel_missing: an unknown id 99, and id 2 twice. -/
theorem C7_cancel_missing_witness :
    delTimer sA 99 = (sA, false) ∧ (delTimer (delTimer sA 2).1 2).2 = false :=
  ⟨(C7_cancel_missing sA 99).1 (by decide),
   (C7_cancel_missing sA 2).2 (by decide) (by decide)⟩

/-! ### Claim C8: the polling loop's sleep and the minimum tracker -/

/-- Claim C8 as stated is false on the code: with a tracked minimum of
5 ms, the loop iteration sleeps for 5 / 10 = 0 time units — there is no
lower clamp of 1 in StartTimerLoop. -/
theorem C8_counterexample :
    (loopIteration exLS 1 0).2.2.2 = 0 ∧ ¬ (1 ≤ (loopIteration exLS 1 0).2.2.2) := by
  decide

/-- Claim C8 amended: each loop iteration runs one ExpireTimer call and
then sleeps exactly min_timing_time_ms / 10 (truncating int division, so 0
whenever the minimum is below 10, with no 1-unit lower bound), and the
tracked minimum is monotone: an intercepted Schedule shrinks it to the
requested timing exactly when that timing is smaller, and never grows it. -/
theorem C8_loop_sleep (ls : LoopState) (fuel now timing : Nat) (lp : Bool)
    (h0 : 0 ≤ ls.min_timing_time_ms) (h1 : ls.min_timing_time_ms ≤ int32Max) :
    (loopIteration ls fuel now).1.base = (expireTimer fuel ls.base now).1 ∧
    (loopIteration ls fuel now).2.2.2 = Int.tdiv ls.min_timing_time_ms 10 ∧
    (loopAddTimer ls now timing lp).1.min_timing_time_ms ≤ ls.min_timing_time_ms ∧
    ((timing : Int) < ls.min_timing_time_ms →
      (loopAddTimer ls now timing lp).1.min_timing_time_ms = (timing : Int)) ∧
    (ls.min_timing_time_ms ≤ (timing : Int) →
      (loopAddTimer ls now timing lp).1.min_timing_time_ms = ls.min_timing_time_ms) := by
  obtain ⟨m1, m2, m3, _⟩ := loopAddTimer_min ls now timing lp h0 h1
  exact ⟨rfl, rfl, m1, m2, m3⟩

/-- Witness for C8_loop_sleep at the concrete driver state exLS. -/
theorem C8_loop_sleep_witness :
    (loopIteration exLS 1 0).1.base = (expireTimer 1 exLS.base 0).1 ∧
    (loopIteration exLS 1 0).2.2.2 = Int.tdiv exLS.min_timing_time_ms 10 ∧
    (loopAddTimer exLS 0 3 false).1.min_timing_time_ms ≤ exLS.min_timing_time_ms ∧
    ((3 : Int) < exLS.min_timing_time_ms →
      (loopAddTimer exLS 0 3 false).1.min_timing_time_ms = (3 : Int)) ∧
    (exLS.min_timing_time_ms ≤ (3 : Int) →
      (loopAddTimer exLS 0 3 false).1.min_timing_time_ms = exLS.min_timing_time_ms) :=
  C8_loop_sleep exLS 1 0 3 false (by decide) (by decide)

/-! ### Claim C9: the identifier counter -/

/-- Claim C9 as stated is false on the code: the counter behind Count() is
a 32-bit int, not a 64-bit integer, so a Schedule issued with the counter
at INT_MAX returns INT_MIN, which is smaller than the previously assigned
identifier rather than strictly greater. -/
theorem C9_counterexample :
    (addTimer exSMax 0 1 false).2 = int32Min ∧
    (addTimer exSMax 0 1 false).2 < exSMax.count := by decide

/-- Claim C9 amended: identifiers come from the 32-bit int counter behind
Count(); while the counter has not reached INT_MAX, every Schedule returns
the incremented counter, which is strictly greater than all previously
assigned identifiers (so never reassigns a live or cancelled one), and
Cancel never rewinds the counter. -/
theorem C9_counter (s : TimerState) (now timing : Nat) (lp : Bool) (i : Int)
    (hinv : Inv s) (hcm : s.count < int32Max) :
    (addTimer s now timing lp).2 = s.count + 1 ∧
    s.count < (addTimer s now timing lp).2 ∧
    (addTimer s now timing lp).2 ∉ heapIds s.heap ∧
    (addTimer s now timing lp).2 ∉ s.tmap ∧
    (addTimer s now timing lp).1.count = (addTimer s now timing lp).2 ∧
    (delTimer s i).1.count = s.count := by
  obtain ⟨a1, a2, a3, a4, a5⟩ := addTimer_inv s now timing lp hinv hcm
  refine ⟨a3, by omega, ?_, ?_, by rw [a3, a4], delTimer_count s i⟩
  · rw [a3]
    intro hx
    obtain ⟨m, hm, he⟩ := List.mem_map.mp hx
    have := hinv.2.2.2.2.1 m hm
    omega
  · rw [a3]
    intro hx
    have hx2 := (hinv.2.2.2.1.mem_iff).mp hx
    obtain ⟨m, hm, he⟩ := List.mem_map.mp hx2
    have := hinv.2.2.2.2.1 m hm
    omega

/-- Witness for C9_counter at the concrete state exS1. -/
theorem C9_counter_witness :
    (addTimer exS1 0 9 false).2 = exS1.count + 1 ∧
    exS1.count < (addTimer exS1 0 9 false).2 ∧
    (addTimer exS1 0 9 false).2 ∉ heapIds exS1.heap ∧
    (addTimer exS1 0 9 false).2 ∉ exS1.tmap ∧
    (addTimer exS1 0 9 false).1.count = (addTimer exS1 0 9 false).2 ∧
    (delTimer exS1 1).1.count = exS1.count :=
  C9_counter exS1 0 9 false 1 (by decide) (by decide)

/-! ### Claim C10: sweep termination -/

theorem zeroLoop_stuck (now : Nat) : ∀ (fuel : Nat) (s : TimerState) (node : TNode),
    s.heap = [node] → node.idx = 0 → node.is_loop = true → node.timing_time_ms = 0 →
    node.expire_ms ≤ now →
    (expireLoop now fuel s).2.2 = false := by
  intro fuel
  induction fuel with
  | zero => intro s node _ _ _ _ _; rfl
  | succ fuel ih =>
    intro s node hh hidx hlp hT hexp
    rw [expireLoop_cons_due hh (by omega)]
    show (expireLoop now fuel (expireStep s now node)).2.2 = false
    have h1 : removeNode s node = { s with heap := [], tmap := mapErase node.id s.tmap } := by
      have hkl : node.idx = s.heap.length - 1 := by
        rw [hh, hidx]
        rfl
      rw [removeNode_eq_last hkl, hh]
      rfl
    have h2 : expireStep s now node =
        { heap := [{ node with
            idx := 0, id := countStep s.count,
            expire_ms := (now + node.timing_time_ms) % 2 ^ 64 }],
          tmap := mapInsert (countStep s.count) (mapErase node.id s.tmap),
          count := countStep s.count } := by
      rw [expireStep, if_pos hlp, h1, reAddTimer_eq]
      simp [shiftUp, shiftUpF]
    rw [h2]
    refine ih _ _ rfl rfl hlp hT ?_
    show (now + node.timing_time_ms) % 2 ^ 64 ≤ now
    rw [hT, Nat.add_zero]
    exact Nat.mod_le now _

/-- Claim C10: a sweep always runs to completion when every repeating node
in the heap has a positive interval (and no 64-bit wrap), with fuel
covering the number of due nodes; and without that precondition it need
not: on the concrete state exBad, whose single repeating node has interval
0 and is due at time 0, the do-while never exits — no amount of fuel makes
the loop finish. -/
theorem C10_termination :
    (∀ (s : TimerState) (now fuel : Nat), Inv s → GoodLoops now s.heap →
      s.count + (fuel : Int) ≤ int32Max →
      ((keys s.heap).filter (dueKey now)).length < fuel →
      (expireTimer fuel s now).2.2 = true) ∧
    (∀ fuel : Nat, (expireTimer fuel exBad 0).2.2 = false) := by
  constructor
  · intro s now fuel hinv hgl hcnt hdl
    exact (expireTimer_main fuel s now hinv hgl hcnt hdl).2.1
  · intro fuel
    rw [expireTimer, if_neg (by decide)]
    exact zeroLoop_stuck 0 fuel exBad exBadNode rfl rfl rfl rfl (by decide)

/-- Witness for C10_termination's first part at exS1 swept at time 5. -/
theorem C10_termination_witness :
    (expireTimer 2 exS1 5).2.2 = true ∧ (expireTimer 3 exBad 0).2.2 = false :=
  ⟨C10_termination.1 exS1 5 2 (by decide) (by decide) (by decide) (by decide),
   C10_termination.2 3⟩

end MHT
